import Mathlib

/-!
Verification of the attribute-resolution core of the scanned repository
(`checkov/terraform/graph_builder/graph_components/blocks.py` and
`checkov/terraform/checks_infra/solvers/attribute_solvers/within_attribute_solver.py`).

Python dynamic values are embedded as the closed tagged variant `Value`
(primitive, ordered sequence, string-keyed mapping).  Python `dict`s are
embedded as insertion-ordered association lists (`PyDict`); `d[k] = v`
replaces in place when the key exists and appends otherwise, exactly as a
Python dict behaves.  In-place mutation of nested containers is modelled by
functional update: each operation returns the post-state of the objects it
mutated.  Recursive functions over `Value` are written with an explicit fuel
argument (structural recursion on the fuel) so that the kernel can evaluate
them on concrete inputs; a wrapper supplies `sizeOf`-large fuel, and fuel
adequacy is proved.
-/

/-- Embedded Python primitive values: strings, integers, booleans and `None`. -/
inductive Prim where
  | pstr (s : String)
  | pint (n : Int)
  | pbool (b : Bool)
  | pnull
deriving DecidableEq, Repr

/-- Embedded Python values: a primitive, a list, or a string-keyed dict
(insertion-ordered association list, as Python dicts are ordered). -/
inductive Value where
  | prim (p : Prim)
  | vlist (l : List Value)
  | vdict (d : List (String × Value))
deriving Repr

mutual

/-- Number of nodes of a value; used as the fuel bound for the fueled
recursions below. -/
def vsize : Value → Nat
  | .prim _ => 1
  | .vlist l => 1 + lsize l
  | .vdict d => 1 + dsize d
termination_by structural v => v

/-- Total node count of a list of values. -/
def lsize : List Value → Nat
  | [] => 0
  | x :: xs => vsize x + lsize xs
termination_by structural l => l

/-- Total node count of the values of a dict. -/
def dsize : List (String × Value) → Nat
  | [] => 0
  | (_, v) :: r => vsize v + dsize r
termination_by structural l => l

end

theorem vsize_pos (v : Value) : 1 ≤ vsize v := by
  cases v <;> simp [vsize]

theorem vsize_le_lsize {x : Value} {l : List Value} (h : x ∈ l) : vsize x ≤ lsize l := by
  induction h with
  | head as => simp [lsize]
  | tail b hmem ih =>
    simp only [lsize]
    omega

theorem vsize_lt_vlist {x : Value} {l : List Value} (h : x ∈ l) :
    vsize x < vsize (Value.vlist l) := by
  have := vsize_le_lsize h
  simp only [vsize]
  omega

theorem vsize_le_dsize {k : String} {c : Value} {d : List (String × Value)}
    (h : (k, c) ∈ d) : vsize c ≤ dsize d := by
  induction h with
  | head as => simp [dsize]
  | tail b hmem ih =>
    obtain ⟨k', v'⟩ := b
    simp only [dsize]
    omega

theorem vsize_lt_vdict {k : String} {c : Value} {d : List (String × Value)}
    (h : (k, c) ∈ d) : vsize c < vsize (Value.vdict d) := by
  have := vsize_le_dsize h
  simp only [vsize]
  omega

/-- Element-wise Boolean comparison of value lists, given a comparison on values. -/
def listBeqWith (f : Value → Value → Bool) : List Value → List Value → Bool
  | [], [] => true
  | x :: xs, y :: ys => f x y && listBeqWith f xs ys
  | _, _ => false

/-- Entry-wise Boolean comparison of dicts, given a comparison on values. -/
def dictBeqWith (f : Value → Value → Bool) :
    List (String × Value) → List (String × Value) → Bool
  | [], [] => true
  | (k1, v1) :: r1, (k2, v2) :: r2 => k1 = k2 && f v1 v2 && dictBeqWith f r1 r2
  | _, _ => false

/-- Fueled structural equality on `Value` (structural recursion on the fuel,
so the kernel can evaluate it). -/
def vbeqF : Nat → Value → Value → Bool
  | 0, _, _ => false
  | _+1, .prim a, .prim b => a = b
  | f+1, .vlist l1, .vlist l2 => listBeqWith (vbeqF f) l1 l2
  | f+1, .vdict d1, .vdict d2 => dictBeqWith (vbeqF f) d1 d2
  | _+1, _, _ => false

/-- Structural equality on `Value` (Python `==` on the embedded values). -/
def vbeq (a b : Value) : Bool := vbeqF (vsize a + 1) a b

theorem listBeqWith_iff (f : Value → Value → Bool) (l1 l2 : List Value)
    (h : ∀ x ∈ l1, ∀ y, f x y = true ↔ x = y) :
    listBeqWith f l1 l2 = true ↔ l1 = l2 := by
  induction l1 generalizing l2 with
  | nil => cases l2 <;> simp [listBeqWith]
  | cons x xs ih =>
    cases l2 with
    | nil => simp [listBeqWith]
    | cons y ys =>
      simp only [listBeqWith, Bool.and_eq_true, List.cons.injEq]
      rw [h x (by simp) y, ih ys (fun z hz => h z (by simp [hz]))]

theorem dictBeqWith_iff (f : Value → Value → Bool) (d1 d2 : List (String × Value))
    (h : ∀ kv ∈ d1, ∀ y, f kv.2 y = true ↔ kv.2 = y) :
    dictBeqWith f d1 d2 = true ↔ d1 = d2 := by
  induction d1 generalizing d2 with
  | nil => cases d2 <;> simp [dictBeqWith]
  | cons kv r1 ih =>
    obtain ⟨k1, v1⟩ := kv
    cases d2 with
    | nil => simp [dictBeqWith]
    | cons kv2 r2 =>
      obtain ⟨k2, v2⟩ := kv2
      simp only [dictBeqWith, Bool.and_eq_true, List.cons.injEq, Prod.mk.injEq,
        decide_eq_true_eq]
      rw [h (k1, v1) (by simp) v2, ih r2 (fun z hz => h z (by simp [hz])),
        and_assoc]

theorem vbeqF_iff : ∀ (f : Nat) (a b : Value), vsize a < f →
    (vbeqF f a b = true ↔ a = b) := by
  intro f
  induction f with
  | zero => intro a b h; omega
  | succ f ih =>
    intro a b h
    cases a with
    | prim p => cases b <;> simp [vbeqF]
    | vlist l1 =>
      cases b with
      | prim q => simp [vbeqF]
      | vdict d2 => simp [vbeqF]
      | vlist l2 =>
        simp only [vbeqF, Value.vlist.injEq]
        refine listBeqWith_iff _ _ _ (fun x hx y => ih x y ?_)
        have h1 : vsize x < vsize (Value.vlist l1) := vsize_lt_vlist hx
        omega
    | vdict d1 =>
      cases b with
      | prim q => simp [vbeqF]
      | vlist l2 => simp [vbeqF]
      | vdict d2 =>
        simp only [vbeqF, Value.vdict.injEq]
        refine dictBeqWith_iff _ _ _ (fun kv hkv y => ih kv.2 y ?_)
        have h1 : vsize kv.2 < vsize (Value.vdict d1) := by
          obtain ⟨k, v⟩ := kv
          exact vsize_lt_vdict hkv
        omega

theorem vbeq_iff (a b : Value) : vbeq a b = true ↔ a = b :=
  vbeqF_iff (vsize a + 1) a b (by omega)

instance : DecidableEq Value := fun a b => decidable_of_iff _ (vbeq_iff a b)

/-- A Python dict with string keys and `Value` values. -/
abbrev PyDict := List (String × Value)

/-- Python truthiness (`bool(v)`): `None`, `False`, `0`, `""`, `[]`, `{}` are falsy. -/
def truthy : Value → Bool
  | .prim (.pstr s) => !s.isEmpty
  | .prim (.pint n) => n != 0
  | .prim (.pbool b) => b
  | .prim .pnull => false
  | .vlist l => !l.isEmpty
  | .vdict d => !d.isEmpty

/-- Truthiness of a `dict.get` result (`None`, i.e. `Option.none`, is falsy). -/
def truthyOpt : Option Value → Bool
  | none => false
  | some v => truthy v

/-- `d.get(k)` / `d[k]` lookup on an association-list dict (first matching key). -/
def dget {α : Type} (d : List (String × α)) (k : String) : Option α :=
  match d with
  | [] => none
  | (k', v) :: rest => if k' = k then some v else dget rest k

/-- Python `d[k] = v`: replace in place if `k` is present, else append. -/
def dinsert {α : Type} (d : List (String × α)) (k : String) (v : α) : List (String × α) :=
  match d with
  | [] => [(k, v)]
  | (k', v') :: rest => if k' = k then (k, v) :: rest else (k', v') :: dinsert rest k v

/-- Python `del d[k]`: remove the (first) entry with key `k`. -/
def ddelete {α : Type} (d : List (String × α)) (k : String) : List (String × α) :=
  match d with
  | [] => []
  | (k', v') :: rest => if k' = k then rest else (k', v') :: ddelete rest k

/-- Python `d.update(new)`: assign every entry of `new` into `d`, in order. -/
def dupdate {α : Type} (d new : List (String × α)) : List (String × α) :=
  new.foldl (fun acc kv => dinsert acc kv.1 kv.2) d

/-- The keys of a dict, in insertion order. -/
def dkeys {α : Type} (d : List (String × α)) : List String := d.map (·.1)

theorem dget_dinsert {α : Type} (d : List (String × α)) (k k' : String) (v : α) :
    dget (dinsert d k v) k' = if k = k' then some v else dget d k' := by
  induction d with
  | nil => by_cases h : k = k' <;> simp [dinsert, dget, h]
  | cons hd tl ih =>
    obtain ⟨hk, hv⟩ := hd
    by_cases h1 : hk = k
    · subst h1
      by_cases h2 : hk = k' <;> simp [dinsert, dget, h2]
    · by_cases h2 : hk = k'
      · subst h2
        have h3 : ¬k = hk := fun hh => h1 hh.symm
        simp [dinsert, dget, h1, h3]
      · simp [dinsert, dget, h1, h2, ih]

theorem dget_ddelete {α : Type} (d : List (String × α)) (k k' : String) (h : k ≠ k') :
    dget (ddelete d k) k' = dget d k' := by
  induction d with
  | nil => simp [ddelete]
  | cons hd tl ih =>
    obtain ⟨hk, hv⟩ := hd
    by_cases h1 : hk = k
    · subst h1
      have h2 : ¬hk = k' := h
      simp [ddelete, dget, h2]
    · by_cases h2 : hk = k'
      · subst h2
        simp [ddelete, dget, h1]
      · simp [ddelete, dget, h1, h2, ih]

/-! ### String path utilities

Python path strings are manipulated with `attribute_key.split('.')`,
`'.'.join(parts)`, `key.find('.') > -1` and `curr_key.isnumeric()`.  They are
embedded character-level so their algebra is provable. -/

/-- Character-level model of Python `s.split('.')` on the character list. -/
def splitChars : List Char → List (List Char)
  | [] => [[]]
  | c :: rest =>
    if c = '.' then [] :: splitChars rest
    else
      match splitChars rest with
      | t :: ts => (c :: t) :: ts
      | [] => [[c]]

/-- Python `s.split('.')`. -/
def splitDot (s : String) : List String := (splitChars s.data).map String.mk

/-- Python `'.'.join(parts)`. -/
def joinDot : List String → String
  | [] => ""
  | [s] => s
  | s :: rest => s ++ "." ++ joinDot rest

/-- Python `key.find('.') > -1`. -/
def containsDot (s : String) : Bool := s.data.contains '.'

/-- Python `curr_key.isnumeric()` (restricted to ASCII digits, the only
numerics produced by the code's own index keys). -/
def pyIsNumeric (s : String) : Bool := !s.data.isEmpty && s.data.all Char.isDigit

/-- Python `int(s)` on a numeric string. -/
def pyToNat (s : String) : Nat :=
  s.data.foldl (fun n c => n * 10 + (c.toNat - Char.toNat '0')) 0

theorem splitChars_ne_nil (cs : List Char) : splitChars cs ≠ [] := by
  cases cs with
  | nil => simp [splitChars]
  | cons c rest =>
    by_cases h : c = '.'
    · simp [splitChars, h]
    · simp only [splitChars, h, if_false]
      cases hs : splitChars rest <;> simp

theorem splitDot_ne_nil (s : String) : splitDot s ≠ [] := by
  have := splitChars_ne_nil s.data
  simp [splitDot]
  intro hc
  exact absurd hc this

/-- No component produced by `splitChars` contains a dot. -/
theorem splitChars_no_dot (cs : List Char) :
    ∀ t ∈ splitChars cs, '.' ∉ t := by
  induction cs with
  | nil =>
    intro t ht
    simp [splitChars] at ht
    simp [ht]
  | cons c rest ih =>
    intro t ht
    by_cases h : c = '.'
    · simp only [splitChars, h, if_pos] at ht
      rw [List.mem_cons] at ht
      rcases ht with ht | ht
      · simp [ht]
      · exact ih t ht
    · simp only [splitChars, h, if_false] at ht
      cases hs : splitChars rest with
      | nil => exact absurd hs (splitChars_ne_nil rest)
      | cons u us =>
        rw [hs] at ht
        rw [List.mem_cons] at ht
        rcases ht with ht | ht
        · subst ht
          have hu : '.' ∉ u := ih u (by rw [hs]; simp)
          simp [h, hu]
          exact fun hh => h hh.symm
        · exact ih t (by rw [hs]; simp [ht])

theorem splitChars_append_dot (a b : List Char) (ha : '.' ∉ a) :
    splitChars (a ++ '.' :: b) = a :: splitChars b := by
  induction a with
  | nil => simp [splitChars]
  | cons c cs ih =>
    have hc : c ≠ '.' := by
      intro hh
      exact ha (by simp [hh])
    have hcs : '.' ∉ cs := fun hh => ha (by simp [hh])
    simp only [List.cons_append, splitChars, hc, if_false]
    rw [show (cs.append ('.' :: b)) = cs ++ '.' :: b from rfl, ih hcs]

theorem splitChars_of_no_dot (cs : List Char) (h : '.' ∉ cs) :
    splitChars cs = [cs] := by
  induction cs with
  | nil => simp [splitChars]
  | cons c rest ih =>
    have hc : c ≠ '.' := by
      intro hh
      exact h (by simp [hh])
    have hrest : '.' ∉ rest := fun hh => h (by simp [hh])
    simp only [splitChars, hc, if_false, ih hrest]

theorem stringMk_data (s : String) : String.mk s.data = s := by
  cases s
  rfl

/-- Splitting a dot-join recovers the components, when none contains a dot. -/
theorem splitDot_joinDot (l : List String) (hne : l ≠ [])
    (hnd : ∀ s ∈ l, '.' ∉ s.data) : splitDot (joinDot l) = l := by
  induction l with
  | nil => exact absurd rfl hne
  | cons s rest ih =>
    cases rest with
    | nil =>
      have hs : '.' ∉ s.data := hnd s (by simp)
      simp [splitDot, joinDot, splitChars_of_no_dot s.data hs, stringMk_data]
    | cons s2 rest2 =>
      have hs : '.' ∉ s.data := hnd s (by simp)
      have hdata : (joinDot (s :: s2 :: rest2)).data
          = s.data ++ '.' :: (joinDot (s2 :: rest2)).data := by
        show (s ++ "." ++ joinDot (s2 :: rest2)).data = _
        simp [String.data_append]
      have hih : splitDot (joinDot (s2 :: rest2)) = s2 :: rest2 :=
        ih (by simp) (fun t ht => hnd t (by simp [ht]))
      simp only [splitDot, hdata, splitChars_append_dot s.data _ hs, List.map_cons,
        stringMk_data]
      simp only [splitDot] at hih
      rw [hih]

/-! ### blocks.py: `get_inner_attributes`

Source (`blocks.py`, lines 204-219): recursively flattens a nested value
under a dotted root key, unwrapping singleton lists once at the entry of each
call, and rebuilding the root entry from the flattened children as it loops.
The recursion is fueled; `get_inner_attributes` supplies adequate fuel. -/

/-- The singleton-unwrap stanza
`if type(v) is list and len(v) == 1: v = v[0]` used by `get_inner_attributes`
and `get_origin_attributes`. -/
def unwrapSingleton : Value → Value
  | .vlist [x] => x
  | v => v

/-- In-place update of the container stored under `rootKey` in `acc`
(Python mutates the aliased container object `inner_attributes[attribute_key]`;
the entry is always present when this runs). -/
def rootSet (acc : PyDict) (rootKey : String) (upd : Value → Value) : PyDict :=
  match dget acc rootKey with
  | some rv => dinsert acc rootKey (upd rv)
  | none => acc

/-- The `for key in iterator` loop of `get_inner_attributes` for a list value:
per element, flatten it under `f'{attribute_key}.{i}'`, merge into the
accumulated dict, and set index `i` of the root list entry to the child's
rebuilt value. -/
def giaListLoop (rec : String → Value → Option PyDict) (attribute_key : String) :
    Nat → List Value → PyDict → Option PyDict
  | _, [], acc => some acc
  | i, x :: rest, acc =>
    let inner_key := attribute_key ++ "." ++ toString i
    match rec inner_key x with
    | none => none
    | some child =>
      let acc1 := dupdate acc child
      let cv := (dget acc1 inner_key).getD (.prim .pnull)
      let acc2 := rootSet acc1 attribute_key (fun rv =>
        match rv with
        | .vlist l => .vlist (l.set i cv)
        | rv => rv)
      giaListLoop rec attribute_key (i + 1) rest acc2

/-- The `for key in iterator` loop of `get_inner_attributes` for a dict value:
per entry, flatten it under `f'{attribute_key}.{key}'`, merge, and set key
`key` of the root dict entry to the child's rebuilt value. -/
def giaDictLoop (rec : String → Value → Option PyDict) (attribute_key : String) :
    List (String × Value) → PyDict → Option PyDict
  | [], acc => some acc
  | (key, inner_value) :: rest, acc =>
    let inner_key := attribute_key ++ "." ++ key
    match rec inner_key inner_value with
    | none => none
    | some child =>
      let acc1 := dupdate acc child
      let cv := (dget acc1 inner_key).getD (.prim .pnull)
      let acc2 := rootSet acc1 attribute_key (fun rv =>
        match rv with
        | .vdict d => .vdict (dinsert d key cv)
        | rv => rv)
      giaDictLoop rec attribute_key rest acc2

/-- Fueled `get_inner_attributes(attribute_key, attribute_value)`.
For a container (after one singleton unwrap) the accumulator starts as
`{attribute_key: [None]*len(v)}` resp. `{attribute_key: {}}`, exactly as in
the source; a leaf maps the key to itself. -/
def giaF : Nat → String → Value → Option PyDict
  | 0, _, _ => none
  | f + 1, attribute_key, attribute_value =>
    let av := unwrapSingleton attribute_value
    match av with
    | .vlist l =>
        giaListLoop (giaF f) attribute_key 0 l
          [(attribute_key, .vlist (List.replicate l.length (.prim .pnull)))]
    | .vdict d => giaDictLoop (giaF f) attribute_key d [(attribute_key, .vdict [])]
    | av => some [(attribute_key, av)]

/-- `get_inner_attributes` with adequate fuel. -/
def get_inner_attributes (attribute_key : String) (attribute_value : Value) : PyDict :=
  (giaF (vsize attribute_value + 1) attribute_key attribute_value).getD []

theorem vsize_unwrapSingleton_le (v : Value) : vsize (unwrapSingleton v) ≤ vsize v := by
  cases v with
  | prim p => simp [unwrapSingleton]
  | vdict d => simp [unwrapSingleton]
  | vlist l =>
    cases l with
    | nil => simp [unwrapSingleton]
    | cons x xs =>
      cases xs with
      | nil =>
        simp only [unwrapSingleton, vsize, lsize]
        omega
      | cons y ys => simp [unwrapSingleton]

theorem giaListLoop_isSome (rec : String → Value → Option PyDict) (k : String)
    (elems : List Value) (hrec : ∀ x ∈ elems, ∀ key, (rec key x).isSome) :
    ∀ i acc, (giaListLoop rec k i elems acc).isSome := by
  induction elems with
  | nil => intro i acc; simp [giaListLoop]
  | cons x rest ih =>
    intro i acc
    have hx := hrec x (by simp) (k ++ "." ++ toString i)
    simp only [giaListLoop]
    cases hc : rec (k ++ "." ++ toString i) x with
    | none => rw [hc] at hx; simp at hx
    | some child =>
      exact ih (fun z hz key => hrec z (by simp [hz]) key) (i + 1) _

theorem giaDictLoop_isSome (rec : String → Value → Option PyDict) (k : String)
    (entries : List (String × Value))
    (hrec : ∀ kv ∈ entries, ∀ key, (rec key kv.2).isSome) :
    ∀ acc, (giaDictLoop rec k entries acc).isSome := by
  induction entries with
  | nil => intro acc; simp [giaDictLoop]
  | cons kv rest ih =>
    obtain ⟨ek, ev⟩ := kv
    intro acc
    have hx := hrec (ek, ev) (by simp) (k ++ "." ++ ek)
    simp only [giaDictLoop]
    cases hc : rec (k ++ "." ++ ek) ev with
    | none => rw [hc] at hx; simp at hx
    | some child =>
      exact ih (fun z hz key => hrec z (by simp [hz]) key) _

theorem giaF_isSome : ∀ (f : Nat) (k : String) (v : Value), vsize v < f →
    (giaF f k v).isSome := by
  intro f
  induction f with
  | zero => intro k v h; omega
  | succ f ih =>
    intro k v h
    have hun : vsize (unwrapSingleton v) ≤ vsize v := vsize_unwrapSingleton_le v
    simp only [giaF]
    cases hav : unwrapSingleton v with
    | prim p => simp
    | vlist l =>
      refine giaListLoop_isSome _ _ _ (fun x hx key => ih key x ?_) 0 _
      have : vsize x < vsize (Value.vlist l) := vsize_lt_vlist hx
      rw [← hav] at this
      omega
    | vdict d =>
      refine giaDictLoop_isSome _ _ _ (fun kv hkv key => ih key kv.2 ?_) _
      have : vsize kv.2 < vsize (Value.vdict d) := by
        obtain ⟨kk, vv⟩ := kv
        exact vsize_lt_vdict hkv
      rw [← hav] at this
      omega

/-! ### blocks.py: `update_inner_attribute`

Source (`blocks.py`, lines 135-156).  The recursion mutates Python containers
in place and signals failure by exception; the embedding returns the
post-state of the visited container together with a flag that is `true`
exactly when an exception propagates to the caller.  The `except` handler
falls back to a direct write at this call's full `attribute_key` when
`nested_attributes.get(attribute_key)` is not `None`; on a non-dict the
handler's own `.get` raises `AttributeError`, so the exception propagates
with the mutations performed so far kept. -/

/-- Python writes an `int` dict key when a numeric path component is assigned
into a mapping (`nested_attributes[int(curr_key)] = v`).  An `int` key is a
different key from every string key and is unreachable by the string-keyed
lookups of this code; it is embedded as a NUL-tagged string, which no
attribute path contains. -/
def intKey (s : String) : String := "\x00" ++ s

/-- The broadcast loop `for inner in nested_attributes: ...` of
`update_inner_attribute`: each element is updated with the single component
`curr_key`; an exception aborts the loop, keeping the mutations made so far
(elements after the failing one are untouched). -/
def uiaBroadcast (rec : String → Value → Value → Option (Value × Bool))
    (curr_key : String) (value_to_update : Value) :
    List Value → Option (List Value × Bool)
  | [] => some ([], false)
  | x :: rest =>
    match rec curr_key x value_to_update with
    | none => none
    | some (x', raised) =>
      if raised then some (x' :: rest, true)
      else
        match uiaBroadcast rec curr_key value_to_update rest with
        | none => none
        | some (rest', r) => some (x' :: rest', r)

/-- The `type(nested_attributes) is list` branch of `update_inner_attribute`
(the step-1 flat write only fires on dicts, so a list reaches this branch
unchanged).  `rec` is the recursive call at the next lower fuel. -/
def uiaListBody (rec : String → Value → Value → Option (Value × Bool))
    (attribute_key : String) (l : List Value) (value_to_update : Value) :
    Option (Value × Bool) :=
  let split_key := splitDot attribute_key
  let curr_key := split_key.headD ""
  let curr_is_int := pyIsNumeric curr_key
  if ¬curr_is_int then
    -- broadcast over every element with the single component `curr_key`
    match uiaBroadcast rec curr_key value_to_update l with
    | none => none
    | some (l', raised) => some (.vlist l', raised)
  else if split_key.length = 1 then
    -- `nested_attributes[curr_key] = value_to_update`, an int index
    if pyToNat curr_key < l.length then
      some (.vlist (l.set (pyToNat curr_key) value_to_update), false)
    else some (.vlist l, true)  -- IndexError
  else
    -- `nested_attributes[curr_key]` with an int index, inside `try`
    if h : pyToNat curr_key < l.length then
      match rec (joinDot split_key.tail) (l.get ⟨pyToNat curr_key, h⟩)
          value_to_update with
      | none => none
      | some (c', raised) =>
        -- on exception the handler's `.get` on a list raises again
        some (.vlist (l.set (pyToNat curr_key) c'), raised)
    else some (.vlist l, true)  -- IndexError, then handler raises

/-- The `type(nested_attributes) is dict` branch of `update_inner_attribute`,
applied to the dict as it stands after the optional step-1 flat write. -/
def uiaDictBody (rec : String → Value → Value → Option (Value × Bool))
    (attribute_key : String) (d : PyDict) (value_to_update : Value) :
    Option (Value × Bool) :=
  let split_key := splitDot attribute_key
  let curr_key := split_key.headD ""
  let curr_is_int := pyIsNumeric curr_key
  if split_key.length = 1 then
    if curr_is_int then
      -- Python assigns to the `int` key, leaving every string key alone
      some (.vdict (dinsert d (intKey curr_key) value_to_update), false)
    else some (.vdict (dinsert d curr_key value_to_update), false)
  else
    match (if curr_is_int then none else dget d curr_key) with
    | some c =>
      match rec (joinDot split_key.tail) c value_to_update with
      | none => none
      | some (c', raised) =>
        let d2 := dinsert d curr_key c'
        if raised then
          -- except handler, on a dict
          if (dget d2 attribute_key).isSome then
            some (.vdict (dinsert d2 attribute_key value_to_update), false)
          else some (.vdict d2, false)  -- logged, `return e`
        else some (.vdict d2, false)
    | none =>
      -- KeyError inside `try`; handler runs on the unmutated dict
      if (dget d attribute_key).isSome then
        some (.vdict (dinsert d attribute_key value_to_update), false)
      else some (.vdict d, false)  -- logged, `return e`

/-- Fueled `update_inner_attribute(attribute_key, nested_attributes,
value_to_update)`.  Returns the post-state of `nested_attributes` and whether
an exception propagates to the caller.  The step-1 guard
`if type(nested_attributes) is dict and nested_attributes.get(attribute_key):`
only fires for dicts and is therefore fused into the dict branch. -/
def uiaF : Nat → String → Value → Value → Option (Value × Bool)
  | 0, _, _, _ => none
  | f + 1, attribute_key, nested_attributes, value_to_update =>
    match nested_attributes with
    | .vlist l => uiaListBody (uiaF f) attribute_key l value_to_update
    | .vdict d =>
      uiaDictBody (uiaF f) attribute_key
        (if truthyOpt (dget d attribute_key) then dinsert d attribute_key value_to_update
         else d) value_to_update
    | na1 =>
      if (splitDot attribute_key).length = 1 then some (na1, true)  -- TypeError on item assignment
      else some (na1, true)  -- TypeError inside `try`, then handler raises

/-- `update_inner_attribute` with adequate fuel. -/
def update_inner_attribute (attribute_key : String) (nested_attributes : Value)
    (value_to_update : Value) : Value × Bool :=
  (uiaF (vsize nested_attributes + 1) attribute_key nested_attributes
    value_to_update).getD (nested_attributes, true)

/-! ### The `Block` ("Vertex") data model

`BlockType`, `CustomAttributes` and the hash/string helpers live in modules
that are not part of the scanned sources; they are modelled from the spec
where marked. -/

/-- Modelled from the spec: the construct kinds of a vertex (spec section 3;
`variable` is a Lean keyword, hence the trailing underscore). -/
inductive BlockType where
  | resource
  | module
  | variable_
  | output
  | provider
  | locals
deriving DecidableEq, Repr

/-- Modelled from the spec: the string value of a construct kind
(the `BlockType` constants of the source project are plain strings). -/
def BlockType.value : BlockType → String
  | .resource => "resource"
  | .module => "module"
  | .variable_ => "variable"
  | .output => "output"
  | .provider => "provider"
  | .locals => "locals"

/-- Modelled from the spec: the reserved synthetic key marking a
resolved-module placeholder, always stripped at construction (spec section 3). -/
def resolved_module_entry_name : String := "resolved_module_name"

/-- Modelled from the spec: the names of the synthesized base fields of an
export (spec section 4.2); only their distinctness matters here. -/
def attr_BLOCK_NAME : String := "block_name_"

/-- Modelled from the spec: base-field name for the construct kind. -/
def attr_BLOCK_TYPE : String := "block_type_"

/-- Modelled from the spec: base-field name for the source path. -/
def attr_FILE_PATH : String := "file_path_"

/-- Modelled from the spec: base-field name for the original declaration
subtree. -/
def attr_CONFIG : String := "config_"

/-- Modelled from the spec: base-field name for the string label. -/
def attr_LABEL : String := "label_"

/-- Modelled from the spec: base-field name for the caller-assigned id. -/
def attr_ID : String := "id_"

/-- Modelled from the spec: base-field name for the source tag. -/
def attr_SOURCE : String := "source_"

/-- Modelled from the spec: the dedicated field holding the content
fingerprint in an export. -/
def attr_HASH : String := "hash"

/-- Modelled from the spec: the field holding the sorted provenance
breadcrumbs in an export. -/
def attr_RENDERING_BREADCRUMBS : String := "rendering_breadcrumbs_"

/-- The `Block` entity (the spec's Vertex): `blocks.py`, lines 13-47. -/
structure Block where
  name : String
  config : Value
  path : String
  block_type : BlockType
  attributes : PyDict
  id : String
  source : String
  changed_attributes : List (String × List Nat)
  breadcrumbs : PyDict
  module_connections : List (String × List Nat)
  source_module : List Nat
  encode : Bool
deriving DecidableEq, Repr

/-- The loop of `_extract_inner_attributes` (`blocks.py`, lines 49-56): flatten
every attribute whose value is a non-empty list whose first element is a dict. -/
def extract_inner_attributes_loop : List (String × Value) → PyDict → PyDict
  | [], acc => acc
  | (attribute_key, attribute_value) :: rest, acc =>
    match attribute_value with
    | .vlist (x :: xs) =>
      match x with
      | .vdict _ =>
        extract_inner_attributes_loop rest
          (dupdate acc (get_inner_attributes attribute_key (.vlist (x :: xs))))
      | _ => extract_inner_attributes_loop rest acc
    | _ => extract_inner_attributes_loop rest acc

/-- `Block._extract_inner_attributes`. -/
def extract_inner_attributes (attrs : PyDict) : PyDict :=
  extract_inner_attributes_loop attrs []

/-- Modelled from the spec: `os.path.realpath` composed with
`remove_module_dependency_in_path` (both outside the scanned sources);
embedded as the identity, as no claim depends on the path value. -/
def normalize_path (path : String) : String := path

/-- The attribute processing of `Block.__init__` (`blocks.py`, lines 35-46):
the caller's dict is stored *without copying* (`self.attributes = attributes`)
and mutated in place, first deleting the resolved-module key when truthy,
then merging in the flattened inner attributes.  Because of the aliasing,
this is also the state of the caller's dict after construction. -/
def init_attributes (attributes : PyDict) : PyDict :=
  let attributes1 :=
    if truthyOpt (dget attributes resolved_module_entry_name) then
      ddelete attributes resolved_module_entry_name
    else attributes
  dupdate attributes1 (extract_inner_attributes attributes1)

/-- `Block.__init__` (`blocks.py`, lines 14-47).  `config` is deep-copied
(`deepcopy` is the identity on pure values); `attributes` is not. -/
def mk_block (name : String) (config : Value) (path : String) (block_type : BlockType)
    (attributes : PyDict) (bid source : String) (encode : Bool) : Block :=
  { name := name
    config := config
    path := normalize_path path
    block_type := block_type
    attributes := init_attributes attributes
    id := bid
    source := source
    changed_attributes := []
    breadcrumbs := []
    module_connections := []
    source_module := []
    encode := encode }

/-- Python `Block.__init__` aliases the caller's attributes dict
(`self.attributes = attributes`) and mutates it in place; after construction
the caller's mapping *is* the block's attribute dict. -/
def caller_attributes_after_init (attributes : PyDict) : PyDict :=
  init_attributes attributes

/-! ### blocks.py: `update_attribute` -/

/-- Modelled from the spec: `join_trimmed_strings(char_to_join=".", str_lst,
num_to_trim)` (defined outside the scanned sources) joins all but the last
`num_to_trim` components with the joining character, which is always `"."`
at its call site (spec section 4.4: the path and every strict dotted
ancestor of the path). -/
def join_trimmed_strings (str_lst : List String) (num_to_trim : Nat) : String :=
  joinDot (str_lst.take (str_lst.length - num_to_trim))

/-- The `for i in range(len(attribute_key_parts))` loop of `update_attribute`
(`blocks.py`, lines 128-133), iterated over the index list: every dotted
ancestor key (including the full path at `i = 0`) is written directly into
the flat dict with the successively re-wrapped value and recorded in
`changed_attributes`. -/
def update_attribute_loop (attribute_key_parts : List String)
    (previous_breadcrumbs : List Nat) :
    List Nat → Value → PyDict → List (String × List Nat) →
      PyDict × List (String × List Nat)
  | [], _, attrs, changed => (attrs, changed)
  | i :: rest, attribute_value, attrs, changed =>
    let key := join_trimmed_strings attribute_key_parts i
    if containsDot key then
      let attrs1 := dinsert attrs key attribute_value
      let next_value : Value :=
        .vdict [(attribute_key_parts.getD (attribute_key_parts.length - 1 - i) "",
          attribute_value)]
      let changed1 := dinsert changed key previous_breadcrumbs
      update_attribute_loop attribute_key_parts previous_breadcrumbs rest
        next_value attrs1 changed1
    else
      update_attribute_loop attribute_key_parts previous_breadcrumbs rest
        attribute_value attrs changed

/-- `Block.update_attribute` (`blocks.py`, lines 119-133).  The top-level
`update_inner_attribute` call never raises (its container is a dict), so the
sync loop always runs. -/
def update_attribute (b : Block) (attribute_key : String) (attribute_value : Value)
    (change_origin_id : Nat) (previous_breadcrumbs : List Nat) : Block :=
  let previous_breadcrumbs :=
    if previous_breadcrumbs = [] ∨ previous_breadcrumbs.getLast? ≠ some change_origin_id
    then previous_breadcrumbs ++ [change_origin_id]
    else previous_breadcrumbs
  let uia_result := update_inner_attribute attribute_key (.vdict b.attributes)
    attribute_value
  let attrs1 := match uia_result.1 with
    | .vdict d => d
    | _ => b.attributes
  let attribute_key_parts := splitDot attribute_key
  if attribute_key_parts.length = 1 then
    { b with
      attributes := attrs1
      changed_attributes := dinsert b.changed_attributes attribute_key
        previous_breadcrumbs }
  else
    let res := update_attribute_loop attribute_key_parts previous_breadcrumbs
      (List.range attribute_key_parts.length) attribute_value attrs1
      b.changed_attributes
    { b with attributes := res.1, changed_attributes := res.2 }

/-- Reading the nested attribute tree along a component path (the claim's
"the nested tree holds `v` at `p`"). -/
def readPath : List String → Value → Option Value
  | [], v => some v
  | k :: rest, .vdict d =>
    match dget d k with
    | some c => readPath rest c
    | none => none
  | _ :: _, _ => none

/-- The successive re-wrapping performed by the sync loop of
`update_attribute`: after `i` iterations the written value is a chain of `i`
singleton mappings keyed by the successively next-innermost path segments. -/
def wrapChain (parts : List String) (v : Value) : Nat → Value
  | 0 => v
  | i + 1 => .vdict [(parts.getD (parts.length - 1 - i) "", wrapChain parts v i)]

/-- A successful (clean) nested descent of `update_inner_attribute`: every
container along the path is a mapping, every component is non-numeric and
dot-free, every intermediate component is present, and no mapping along a
multi-component remainder holds the remaining dotted key truthily (so the
step-1 flat write does not fire mid-descent).  Relates the initial container
to the rewritten one. -/
inductive UpdOk (v : Value) : List String → Value → Value → Prop
  | last (k : String) (d : PyDict)
      (hnum : pyIsNumeric k = false) (hdot : '.' ∉ k.data) :
      UpdOk v [k] (.vdict d) (.vdict (dinsert d k v))
  | step (k : String) (rest : List String) (d : PyDict) (c c' : Value)
      (hnum : pyIsNumeric k = false) (hdot : '.' ∉ k.data)
      (hrest : rest ≠ [])
      (hget : dget d k = some c)
      (hflat : truthyOpt (dget d (joinDot (k :: rest))) = false)
      (hrec : UpdOk v rest c c') :
      UpdOk v (k :: rest) (.vdict d) (.vdict (dinsert d k c'))

/-- A failing nested descent of `update_inner_attribute`: a chain of mappings
with present, non-numeric, dot-free components that ends either at a mapping
missing the next component (KeyError) or at a primitive child that cannot be
indexed (TypeError), in both cases with the remaining dotted key absent from
the mapping where the exception surfaces (so the except-handler's fallback
also misses) and never truthily present mid-descent (so no step-1 flat write
fires inside the tree). -/
inductive FailUpd (v : Value) : List String → Value → Prop
  | missing (k : String) (rest : List String) (d : PyDict)
      (hnum : pyIsNumeric k = false) (hdot : '.' ∉ k.data)
      (hrest : rest ≠ [])
      (hget : dget d k = none)
      (hfall : dget d (joinDot (k :: rest)) = none) :
      FailUpd v (k :: rest) (.vdict d)
  | prim_child (k : String) (rest : List String) (d : PyDict) (p : Prim)
      (hnum : pyIsNumeric k = false) (hdot : '.' ∉ k.data)
      (hrest : rest ≠ [])
      (hget : dget d k = some (.prim p))
      (hfall : dget d (joinDot (k :: rest)) = none) :
      FailUpd v (k :: rest) (.vdict d)
  | step (k : String) (rest : List String) (d : PyDict) (c : Value)
      (hnum : pyIsNumeric k = false) (hdot : '.' ∉ k.data)
      (hdots : ∀ s ∈ rest, '.' ∉ s.data)
      (hrest : rest ≠ [])
      (hget : dget d k = some c)
      (hflat : truthyOpt (dget d (joinDot (k :: rest))) = false)
      (hrec : FailUpd v rest c) :
      FailUpd v (k :: rest) (.vdict d)

/-! ### blocks.py: `find_attribute` -/

/-- `Block.find_attribute` (`blocks.py`, lines 163-187): presence is decided
by the *truthiness* of `self.attributes.get(...)` at every step.  (The
parameter is `attribute` in the source; `attribute` is a Lean keyword.) -/
def find_attribute (b : Block) (attr : List String) : Option String :=
  match attr with
  | [] => none
  | a0 :: rest =>
    if truthyOpt (dget b.attributes a0) then some a0
    else if b.block_type = BlockType.variable_ then
      if truthyOpt (dget b.attributes "default") then some "default" else none
    else if b.block_type = BlockType.output then
      if truthyOpt (dget b.attributes "value") then some "value" else none
    else if b.block_type = BlockType.resource ∧ rest.length ≥ 1 then
      match rest with
      | a1 :: _ =>
        if b.name = a0 ∧ truthyOpt (dget b.attributes a1) then some a1 else none
      | [] => none
    else none

/-! ### blocks.py: export and content fingerprint -/

/-- Python `sorted` on a list of strings (lexicographic, stable). -/
def sortStrings (l : List String) : List String := List.insertionSort (· ≤ ·) l

/-- Comparison of dict entries by key. -/
def keyLe {α : Type} (a b : String × α) : Prop := a.1 ≤ b.1

instance {α : Type} : DecidableRel (@keyLe α) :=
  fun a b => inferInstanceAs (Decidable (a.1 ≤ b.1))

instance {α : Type} : IsTotal (String × α) keyLe := ⟨fun a b => le_total a.1 b.1⟩

instance {α : Type} : IsTrans (String × α) keyLe :=
  ⟨fun _ _ _ hab hbc => le_trans hab hbc⟩

/-- Python `sorted(d.items())`: entries sorted by key (stable). -/
def sortByKey {α : Type} (d : List (String × α)) : List (String × α) :=
  List.insertionSort keyLe d

/-- Modelled from the spec: `calculate_hash` (defined outside the scanned
sources) is a deterministic digest of a canonical, key-sorted serialization of
the mapping (spec section 4.3); it is embedded as that canonical key-sorted
form itself, so equality of digests is equality of the canonical
serializations. -/
def calculate_hash (d : PyDict) : Value := .vdict (sortByKey d)

/-- Modelled from the spec: `encode_graph_property_value` (defined outside
the scanned sources) is a lossless encode transform applied on export when
`encode` is set (spec section 3); embedded as the identity, as no claim
exercises encoding. -/
def encode_graph_property_value (v : Value) : Value := v

/-- `Block.get_base_attributes` (`blocks.py`, lines 192-201); `__str__` is
`str(block_type) + ': ' + name`. -/
def get_base_attributes (b : Block) : PyDict :=
  [(attr_BLOCK_NAME, .prim (.pstr b.name)),
   (attr_BLOCK_TYPE, .prim (.pstr b.block_type.value)),
   (attr_FILE_PATH, .prim (.pstr b.path)),
   (attr_CONFIG, b.config),
   (attr_LABEL, .prim (.pstr (b.block_type.value ++ ": " ++ b.name))),
   (attr_ID, .prim (.pstr b.id)),
   (attr_SOURCE, .prim (.pstr b.source))]

/-- The loop of `Block.get_origin_attributes` (`blocks.py`, lines 94-106):
singleton lists unwrap once; containers are flattened into the export; a key
literally named `self` is remapped to `self_`; every other key receives the
(unwrapped) raw value, overwriting the flattened root entry. -/
def get_origin_attributes_loop : List (String × Value) → PyDict → PyDict
  | [], base => base
  | (attribute_key, av0) :: rest, base =>
    let attribute_value := unwrapSingleton av0
    let base1 :=
      match attribute_value with
      | .vdict _ => dupdate base (get_inner_attributes attribute_key attribute_value)
      | .vlist _ => dupdate base (get_inner_attributes attribute_key attribute_value)
      | _ => base
    let base2 :=
      if attribute_key = "self" then dinsert base1 "self_" attribute_value
      else dinsert base1 attribute_key attribute_value
    get_origin_attributes_loop rest base2

/-- `Block.get_origin_attributes`. -/
def get_origin_attributes (b : Block) (base : PyDict) : PyDict :=
  get_origin_attributes_loop b.attributes base

/-- The state of the export dict of `Block.get_attribute_dict` at the moment
the fingerprint is computed (`blocks.py`, lines 67-84): base fields, origin
attributes, the sorted `changed_attributes` key list when non-empty, the
sorted breadcrumbs when non-empty, and the encode pass when enabled. -/
def get_attribute_dict_prehash (b : Block) : PyDict :=
  let base0 := get_base_attributes b
  let base1 := get_origin_attributes b base0
  let base2 :=
    if b.changed_attributes ≠ [] then
      dinsert base1 "changed_attributes"
        (.vlist ((sortStrings (b.changed_attributes.map (·.1))).map
          (fun s => .prim (.pstr s))))
    else base1
  let base3 :=
    if b.breadcrumbs ≠ [] then
      dinsert base2 attr_RENDERING_BREADCRUMBS (.vdict (sortByKey b.breadcrumbs))
    else base2
  if b.encode then base3.map (fun kv => (kv.1, encode_graph_property_value kv.2))
  else base3

/-- `Block.get_attribute_dict` (`blocks.py`, lines 61-92): the fingerprint is
computed over the pre-hash dict, stored under the hash field, and the
`changed_attributes` entry is then deleted again when truthy. -/
def get_attribute_dict (b : Block) : PyDict :=
  let base := get_attribute_dict_prehash b
  let base1 := dinsert base attr_HASH (calculate_hash base)
  if truthyOpt (dget base1 "changed_attributes") then
    ddelete base1 "changed_attributes"
  else base1

/-- `Block.get_hash` (`blocks.py`, lines 108-110). -/
def get_hash (b : Block) : Option Value :=
  dget (get_attribute_dict b) attr_HASH

/-! ### within_attribute_solver.py -/

/-- Python `d.get(k)` where an absent key yields `None` (the embedded
`pnull`), as consumed by the solver. -/
def pyGet (d : PyDict) (k : String) : Value :=
  (dget d k).getD (.prim .pnull)

/-- Python `x in l` (membership by `==`). -/
def pyIn (x : Value) (l : List Value) : Bool := l.any (fun y => vbeq y x)

/-- `WithinAttributeSolver._get_operation`
(`within_attribute_solver.py`, lines 11-12):
`vertex.get(attribute) in self.value`. -/
def within_get_operation (value : List Value) (vertex : PyDict)
    (attribute_ : String) : Bool :=
  pyIn (pyGet vertex attribute_) value

/-! ### Generic dictionary lemmas used by the claims -/

theorem dget_mem {α : Type} {d : List (String × α)} {k : String} {v : α}
    (h : dget d k = some v) : (k, v) ∈ d := by
  induction d with
  | nil => simp [dget] at h
  | cons hd tl ih =>
    obtain ⟨hk, hv⟩ := hd
    by_cases h1 : hk = k
    · subst h1
      simp [dget] at h
      simp [h]
    · simp [dget, h1] at h
      simp [ih h]

theorem dget_eq_none_iff {α : Type} (d : List (String × α)) (k : String) :
    dget d k = none ↔ k ∉ d.map (·.1) := by
  induction d with
  | nil => simp [dget]
  | cons hd tl ih =>
    obtain ⟨hk, hv⟩ := hd
    by_cases h1 : hk = k
    · subst h1
      simp [dget]
    · simp only [dget, if_neg h1, List.map_cons, List.mem_cons]
      rw [ih]
      constructor
      · intro ha hb
        rcases hb with hb | hb
        · exact h1 hb.symm
        · exact ha hb
      · intro ha hb
        exact ha (Or.inr hb)

theorem dget_of_mem_nodup {α : Type} {d : List (String × α)} {k : String} {v : α}
    (hmem : (k, v) ∈ d) (hnd : (d.map (·.1)).Nodup) : dget d k = some v := by
  induction d with
  | nil => cases hmem
  | cons hd tl ih =>
    obtain ⟨hk, hv⟩ := hd
    simp only [List.map_cons, List.nodup_cons] at hnd
    rcases List.mem_cons.mp hmem with h | h
    · have h1 : k = hk := congrArg Prod.fst h
      have h2 : v = hv := congrArg Prod.snd h
      subst h1
      subst h2
      simp [dget]
    · have hkne : hk ≠ k := by
        intro hh
        subst hh
        exact hnd.1 (by simpa using List.mem_map_of_mem (·.1) h)
      simp [dget, hkne, ih h hnd.2]

/-- A block in an arbitrary post-construction state, with the given kind,
name and attribute dict and everything else empty; used to state lookup
claims about "a vertex whose attributes are ...". -/
def simpleBlock (bt : BlockType) (nm : String) (attrs : PyDict) : Block :=
  { name := nm
    config := .prim .pnull
    path := ""
    block_type := bt
    attributes := attrs
    id := ""
    source := ""
    changed_attributes := []
    breadcrumbs := []
    module_connections := []
    source_module := []
    encode := false }

/-- C7: `find_attribute` satisfies the cross-kind lookup contract: a variable
vertex whose only attribute is a (truthy) `default` resolves any candidate to
`"default"`; an output vertex whose only attribute is `value` resolves to
`"value"`; a resource vertex named `"aws_vpc.example"` with attribute
`"cidr_block"` resolves `["aws_vpc.example","cidr_block"]` to
`"cidr_block"`; the empty candidate list resolves to absent.  The lookup is
embedded as a total pure function of the block, so it cannot mutate the
vertex and absence is the ordinary value `none`, not an error. -/
theorem C7_find_attribute_cross_kind_lookup :
    (∀ w : Value, truthy w →
      find_attribute (simpleBlock .variable_ "v" [("default", w)]) ["anything"]
        = some "default")
    ∧ (∀ w : Value, truthy w →
      find_attribute (simpleBlock .output "o" [("value", w)]) ["anything"]
        = some "value")
    ∧ (∀ w : Value, truthy w →
      find_attribute (simpleBlock .resource "aws_vpc.example" [("cidr_block", w)])
        ["aws_vpc.example", "cidr_block"] = some "cidr_block")
    ∧ (∀ b : Block, find_attribute b [] = none) := by
  refine ⟨?_, ?_, ?_, ?_⟩
  · intro w hw
    simp [find_attribute, simpleBlock, dget, truthyOpt, hw]
  · intro w hw
    simp [find_attribute, simpleBlock, dget, truthyOpt, hw]
  · intro w hw
    simp [find_attribute, simpleBlock, dget, truthyOpt, hw]
  · intro b
    simp [find_attribute]

/-- Closed witness for C7 at concrete inputs. -/
theorem C7_witness :
    find_attribute (simpleBlock .variable_ "v" [("default", .prim (.pint 5))])
      ["anything"] = some "default"
    ∧ find_attribute (simpleBlock .output "o" [("value", .prim (.pstr "x"))])
      ["anything"] = some "value"
    ∧ find_attribute
        (simpleBlock .resource "aws_vpc.example"
          [("cidr_block", .prim (.pstr "10.0.0.0/16"))])
        ["aws_vpc.example", "cidr_block"] = some "cidr_block" :=
  ⟨C7_find_attribute_cross_kind_lookup.1 (.prim (.pint 5)) (by decide),
   C7_find_attribute_cross_kind_lookup.2.1 (.prim (.pstr "x")) (by decide),
   C7_find_attribute_cross_kind_lookup.2.2.1 (.prim (.pstr "10.0.0.0/16")) (by decide)⟩

/-- `find_attribute` only ever returns a key whose stored value is truthy. -/
theorem find_attribute_some_truthy (b : Block) (attr : List String) (k : String)
    (h : find_attribute b attr = some k) :
    truthyOpt (dget b.attributes k) = true := by
  cases attr with
  | nil => simp [find_attribute] at h
  | cons a0 rest =>
    simp only [find_attribute] at h
    by_cases h1 : truthyOpt (dget b.attributes a0) = true
    · rw [if_pos h1] at h
      injection h with h
      subst h
      exact h1
    · rw [if_neg h1] at h
      by_cases h2 : b.block_type = BlockType.variable_
      · rw [if_pos h2] at h
        by_cases h3 : truthyOpt (dget b.attributes "default") = true
        · rw [if_pos h3] at h
          injection h with h
          subst h
          exact h3
        · rw [if_neg h3] at h
          cases h
      · rw [if_neg h2] at h
        by_cases h4 : b.block_type = BlockType.output
        · rw [if_pos h4] at h
          by_cases h5 : truthyOpt (dget b.attributes "value") = true
          · rw [if_pos h5] at h
            injection h with h
            subst h
            exact h5
          · rw [if_neg h5] at h
            cases h
        · rw [if_neg h4] at h
          by_cases h6 : b.block_type = BlockType.resource ∧ rest.length ≥ 1
          · rw [if_pos h6] at h
            cases rest with
            | nil =>
              have := h6.2
              simp at this
            | cons a1 r2 =>
              dsimp only at h
              by_cases h7 : b.name = a0 ∧ truthyOpt (dget b.attributes a1) = true
              · rw [if_pos h7] at h
                injection h with h
                subst h
                exact h7.2
              · rw [if_neg h7] at h
                cases h
          · rw [if_neg h6] at h
            cases h

/-- C10: `find_attribute` decides presence by truthiness of the stored value,
not key existence: a candidate (or fallback) key bound to a falsy value is
treated as absent, and when every consulted key is falsy the lookup returns
no match; in particular it never returns the first candidate itself when that
candidate's stored value is falsy. -/
theorem C10_find_attribute_truthiness :
    (∀ (b : Block) (a0 : String) (rest : List String) (w : Value),
      dget b.attributes a0 = some w → truthy w = false →
      find_attribute b (a0 :: rest) ≠ some a0)
    ∧ (∀ (a0 : String) (rest : List String) (w1 w2 : Value), a0 ≠ "default" →
      truthy w1 = false → truthy w2 = false →
      find_attribute (simpleBlock .variable_ "v" [(a0, w1), ("default", w2)])
        (a0 :: rest) = none)
    ∧ (∀ (a0 : String) (rest : List String) (w1 w2 : Value), a0 ≠ "value" →
      truthy w1 = false → truthy w2 = false →
      find_attribute (simpleBlock .output "o" [(a0, w1), ("value", w2)])
        (a0 :: rest) = none)
    ∧ (∀ (nm a1 : String) (w : Value), a1 ≠ nm → truthy w = false →
      find_attribute (simpleBlock .resource nm [(a1, w)]) [nm, a1] = none) := by
  refine ⟨?_, ?_, ?_, ?_⟩
  · intro b a0 rest w hget hfalsy hcon
    have := find_attribute_some_truthy b (a0 :: rest) a0 hcon
    rw [hget] at this
    simp [truthyOpt, hfalsy] at this
  · intro a0 rest w1 w2 hne h1 h2
    have hd : dget [(a0, w1), ("default", w2)] a0 = some w1 := by simp [dget]
    have hdef : dget [(a0, w1), ("default", w2)] "default" = some w2 := by
      simp [dget, fun hh => hne hh]
    simp [find_attribute, simpleBlock, hd, hdef, truthyOpt, h1, h2]
  · intro a0 rest w1 w2 hne h1 h2
    have hd : dget [(a0, w1), ("value", w2)] a0 = some w1 := by simp [dget]
    have hval : dget [(a0, w1), ("value", w2)] "value" = some w2 := by
      simp [dget, fun hh => hne hh]
    simp [find_attribute, simpleBlock, hd, hval, truthyOpt, h1, h2]
  · intro nm a1 w hne h1
    have hd : dget [(a1, w)] nm = none := by simp [dget, hne]
    have hd1 : dget [(a1, w)] a1 = some w := by simp [dget]
    simp [find_attribute, simpleBlock, hd, hd1, truthyOpt, h1]

/-- Closed witness for C10 at concrete falsy values. -/
theorem C10_witness :
    find_attribute (simpleBlock .variable_ "v"
      [("x", .prim (.pint 0)), ("default", .prim (.pstr ""))]) ["x"] = none
    ∧ find_attribute (simpleBlock .resource "aws_vpc.example"
      [("cidr_block", .vlist [])]) ["aws_vpc.example", "cidr_block"] = none :=
  ⟨C10_find_attribute_truthiness.2.1 "x" [] (.prim (.pint 0)) (.prim (.pstr ""))
    (by decide) (by decide) (by decide),
   C10_find_attribute_truthiness.2.2.2 "aws_vpc.example" "cidr_block" (.vlist [])
    (by decide) (by decide)⟩

theorem pyIn_iff (x : Value) (l : List Value) : pyIn x l = true ↔ x ∈ l := by
  simp only [pyIn, List.any_eq_true]
  constructor
  · rintro ⟨y, hy, hbeq⟩
    rw [(vbeq_iff y x).mp hbeq] at hy
    exact hy
  · intro hx
    exact ⟨x, hx, (vbeq_iff x x).mpr rfl⟩

/-- C8 counterexample: the claim "when the tested attribute is absent from
the mapping the membership operator returns false" fails at the explicit
input: empty exported mapping, comparison set `[None]`, attribute
`"cipher"` — the attribute is absent yet the operator returns true
(`vertex.get` yields `None` and `None in [None]` holds). -/
theorem C8_within_absent_counterexample :
    dget ([] : PyDict) "cipher" = none
    ∧ within_get_operation [.prim .pnull] [] "cipher" = true := by
  constructor
  · rfl
  · decide

/-- C8 (amended): the membership operator returns true iff the looked-up
value — the attribute's exported value when present, and Python `None` when
absent — is an element of the comparison set; hence when the attribute is
absent it returns false exactly when the comparison set does not contain
`None` (and membership never raises: absence is an ordinary outcome). -/
theorem C8_within_membership :
    ∀ (value : List Value) (vertex : PyDict) (a : String),
      (∀ w, dget vertex a = some w →
        (within_get_operation value vertex a = true ↔ w ∈ value))
      ∧ (dget vertex a = none →
        (within_get_operation value vertex a = true ↔ (Value.prim .pnull) ∈ value)) := by
  intro value vertex a
  constructor
  · intro w hw
    simp [within_get_operation, pyGet, hw, pyIn_iff]
  · intro hnone
    simp [within_get_operation, pyGet, hnone, pyIn_iff]

/-- Closed witness for C8 on the spec's cipher scenario. -/
theorem C8_witness :
    (within_get_operation
      [.prim (.pstr "TLS_AES_128_GCM_SHA256"), .prim (.pstr "TLS_AES_256_GCM_SHA384")]
      [("cipher", .prim (.pstr "TLS_AES_128_GCM_SHA256"))] "cipher" = true
      ↔ (Value.prim (.pstr "TLS_AES_128_GCM_SHA256")
        ∈ [Value.prim (.pstr "TLS_AES_128_GCM_SHA256"),
           Value.prim (.pstr "TLS_AES_256_GCM_SHA384")]))
    ∧ (within_get_operation
      [.prim (.pstr "TLS_AES_128_GCM_SHA256"), .prim (.pstr "TLS_AES_256_GCM_SHA384")]
      [("cipher", .prim (.pstr "TLS_RC4_MD5"))] "cipher" = true
      ↔ (Value.prim (.pstr "TLS_RC4_MD5")
        ∈ [Value.prim (.pstr "TLS_AES_128_GCM_SHA256"),
           Value.prim (.pstr "TLS_AES_256_GCM_SHA384")]))
    ∧ (within_get_operation
      [.prim (.pstr "TLS_AES_128_GCM_SHA256"), .prim (.pstr "TLS_AES_256_GCM_SHA384")]
      [] "cipher" = true
      ↔ (Value.prim .pnull
        ∈ [Value.prim (.pstr "TLS_AES_128_GCM_SHA256"),
           Value.prim (.pstr "TLS_AES_256_GCM_SHA384")])) :=
  ⟨(C8_within_membership _ [("cipher", .prim (.pstr "TLS_AES_128_GCM_SHA256"))]
      "cipher").1 _ (by decide),
   (C8_within_membership _ [("cipher", .prim (.pstr "TLS_RC4_MD5"))] "cipher").1 _
      (by decide),
   (C8_within_membership _ [] "cipher").2 (by decide)⟩

/-- C3 counterexample: `Block.__init__` stores the caller's attributes dict
without any copy (`self.attributes = attributes`) and mutates it in place
(`self.attributes.update(attributes_to_add)`), so at the explicit input
`{"a": [{"b": 1}, {"b": 2}]}` the caller's mapping after construction has
gained the flattened keys `a.0`, `a.0.b`, `a.1`, `a.1.b` — refuting
"constructing the Vertex leaves the caller's mapping unchanged". -/
theorem C3_deep_copy_counterexample :
    (mk_block "n" (.prim .pnull) "" .resource
        [("a", .vlist [.vdict [("b", .prim (.pint 1))], .vdict [("b", .prim (.pint 2))]])]
        "" "" false).attributes
      = caller_attributes_after_init
        [("a", .vlist [.vdict [("b", .prim (.pint 1))], .vdict [("b", .prim (.pint 2))]])]
    ∧ caller_attributes_after_init
        [("a", .vlist [.vdict [("b", .prim (.pint 1))], .vdict [("b", .prim (.pint 2))]])]
      ≠ [("a", .vlist [.vdict [("b", .prim (.pint 1))], .vdict [("b", .prim (.pint 2))]])] := by
  constructor
  · rfl
  · decide

/-- C3 (amended): the Vertex does not deep-copy the attributes mapping (only
`config` is deep-copied): it aliases the caller's dict and mutates it during
construction — stripping the reserved resolved-module key and merging in the
flattened inner attributes — so the block's attribute dict *is* the caller's
mapping post-construction, and construction changes that mapping whenever an
attribute holds a non-empty list of mappings (here shown for every pair of
primitive leaves). -/
theorem C3_attributes_aliased_and_mutated :
    (∀ (nm : String) (cfg : Value) (p : String) (bt : BlockType) (attrs : PyDict)
      (bid src : String) (enc : Bool),
      (mk_block nm cfg p bt attrs bid src enc).attributes
        = caller_attributes_after_init attrs)
    ∧ (∀ p1 p2 : Prim,
      caller_attributes_after_init
          [("a", .vlist [.vdict [("b", .prim p1)], .vdict [("b", .prim p2)]])]
        ≠ [("a", .vlist [.vdict [("b", .prim p1)], .vdict [("b", .prim p2)]])]) := by
  constructor
  · intro nm cfg p bt attrs bid src enc
    rfl
  · intro p1 p2 hcon
    have h1 : dget (caller_attributes_after_init
        [("a", .vlist [.vdict [("b", .prim p1)], .vdict [("b", .prim p2)]])]) "a.0"
        = some (.vdict [("b", .prim p1)]) := rfl
    rw [hcon] at h1
    have h2 : dget
        [("a", Value.vlist [.vdict [("b", .prim p1)], .vdict [("b", .prim p2)]])] "a.0"
        = none := rfl
    rw [h2] at h1
    cases h1

/-- Closed witness for C3's amended statement at concrete inputs. -/
theorem C3_witness :
    caller_attributes_after_init
        [("a", .vlist [.vdict [("b", .prim .pnull)], .vdict [("b", .prim .pnull)]])]
      ≠ [("a", .vlist [.vdict [("b", .prim .pnull)], .vdict [("b", .prim .pnull)]])] :=
  C3_attributes_aliased_and_mutated.2 .pnull .pnull

/-! ### Key-set lemmas for the export dict -/

theorem mem_keys_dinsert {α : Type} (d : List (String × α)) (k k' : String) (v : α) :
    k' ∈ (dinsert d k v).map (·.1) ↔ k' = k ∨ k' ∈ d.map (·.1) := by
  induction d with
  | nil => simp [dinsert]
  | cons hd tl ih =>
    obtain ⟨hk, hv⟩ := hd
    by_cases h1 : hk = k
    · subst h1
      rw [show dinsert ((hk, hv) :: tl) hk v = (hk, v) :: tl by simp [dinsert]]
      simp only [List.map_cons, List.mem_cons]
      tauto
    · rw [show dinsert ((hk, hv) :: tl) k v = (hk, hv) :: dinsert tl k v by
        simp [dinsert, h1]]
      simp only [List.map_cons, List.mem_cons, ih]
      tauto

theorem dinsert_keys_nodup {α : Type} {d : List (String × α)} (k : String) (v : α)
    (h : (d.map (·.1)).Nodup) : ((dinsert d k v).map (·.1)).Nodup := by
  induction d with
  | nil => simp [dinsert]
  | cons hd tl ih =>
    obtain ⟨hk, hv⟩ := hd
    simp only [List.map_cons, List.nodup_cons] at h
    by_cases h1 : hk = k
    · subst h1
      rw [show dinsert ((hk, hv) :: tl) hk v = (hk, v) :: tl by simp [dinsert]]
      simp only [List.map_cons, List.nodup_cons]
      exact h
    · rw [show dinsert ((hk, hv) :: tl) k v = (hk, hv) :: dinsert tl k v by
        simp [dinsert, h1]]
      simp only [List.map_cons, List.nodup_cons]
      refine ⟨?_, ih h.2⟩
      rw [mem_keys_dinsert]
      rintro (hh | hh)
      · exact h1 hh
      · exact h.1 hh

theorem dupdate_keys_nodup {α : Type} {d : List (String × α)} (new : List (String × α))
    (h : (d.map (·.1)).Nodup) : ((dupdate d new).map (·.1)).Nodup := by
  induction new generalizing d with
  | nil => exact h
  | cons kv rest ih =>
    simp only [dupdate, List.foldl_cons]
    exact ih (dinsert_keys_nodup kv.1 kv.2 h)

theorem dget_ddelete_self {α : Type} {d : List (String × α)} (k : String)
    (h : (d.map (·.1)).Nodup) : dget (ddelete d k) k = none := by
  induction d with
  | nil => simp [ddelete, dget]
  | cons hd tl ih =>
    obtain ⟨hk, hv⟩ := hd
    simp only [List.map_cons, List.nodup_cons] at h
    by_cases h1 : hk = k
    · subst h1
      simp only [ddelete, if_pos rfl]
      rw [dget_eq_none_iff]
      exact h.1
    · simp [ddelete, dget, h1, ih h.2]

theorem get_origin_attributes_loop_keys_nodup (entries : List (String × Value))
    (base : PyDict) (h : (base.map (·.1)).Nodup) :
    ((get_origin_attributes_loop entries base).map (·.1)).Nodup := by
  induction entries generalizing base with
  | nil => exact h
  | cons kv rest ih =>
    obtain ⟨ak, av⟩ := kv
    simp only [get_origin_attributes_loop]
    apply ih
    have hmid : (((match unwrapSingleton av with
        | .vdict _ => dupdate base (get_inner_attributes ak (unwrapSingleton av))
        | .vlist _ => dupdate base (get_inner_attributes ak (unwrapSingleton av))
        | _ => base) : PyDict).map (·.1)).Nodup := by
      cases unwrapSingleton av with
      | prim p => exact h
      | vlist l => exact dupdate_keys_nodup _ h
      | vdict dd => exact dupdate_keys_nodup _ h
    by_cases hself : ak = "self"
    · subst hself
      simp only [if_pos rfl]
      exact dinsert_keys_nodup _ _ hmid
    · simp only [if_neg hself]
      exact dinsert_keys_nodup _ _ hmid

/-- The export dict at fingerprint time always has pairwise-distinct keys. -/
theorem get_attribute_dict_prehash_keys_nodup (b : Block) :
    ((get_attribute_dict_prehash b).map (·.1)).Nodup := by
  have h0 : ((get_base_attributes b).map (·.1)).Nodup := by
    simp only [get_base_attributes, List.map_cons, List.map_nil]
    decide
  have h1 := get_origin_attributes_loop_keys_nodup b.attributes _ h0
  have hx : ∀ (d : PyDict), (d.map (·.1)).Nodup →
      ((if b.encode then d.map (fun kv => (kv.1, encode_graph_property_value kv.2))
        else d).map (·.1)).Nodup := by
    intro d hd
    split
    · simpa [List.map_map, Function.comp] using hd
    · exact hd
  have hy : ∀ (d : PyDict), (d.map (·.1)).Nodup →
      ((if b.breadcrumbs ≠ [] then
          dinsert d attr_RENDERING_BREADCRUMBS (.vdict (sortByKey b.breadcrumbs))
        else d).map (·.1)).Nodup := by
    intro d hd
    split
    · exact dinsert_keys_nodup _ _ hd
    · exact hd
  have hz : ((if b.changed_attributes ≠ [] then
      dinsert (get_origin_attributes_loop b.attributes (get_base_attributes b))
        "changed_attributes"
        (.vlist ((sortStrings (b.changed_attributes.map (·.1))).map
          (fun s => .prim (.pstr s))))
      else get_origin_attributes_loop b.attributes (get_base_attributes b)).map
        (·.1)).Nodup := by
    split
    · exact dinsert_keys_nodup _ _ h1
    · exact h1
  exact hx _ (hy _ hz)

/-- C9: when `changed_attributes` is non-empty at export time (and encoding
is off, as at every default construction), the sorted key list is present in
the dict over which the fingerprint is computed, the fingerprint stored in
the returned export is exactly the fingerprint of that dict, and the
`changed_attributes` field itself is absent from the returned export (added,
hashed, then removed). -/
theorem C9_changed_attributes_hashed_then_removed (b : Block)
    (henc : b.encode = false) (hca : b.changed_attributes ≠ []) :
    dget (get_attribute_dict b) "changed_attributes" = none
    ∧ dget (get_attribute_dict b) attr_HASH
        = some (calculate_hash (get_attribute_dict_prehash b))
    ∧ dget (get_attribute_dict_prehash b) "changed_attributes"
        = some (.vlist ((sortStrings (b.changed_attributes.map (·.1))).map
            (fun s => .prim (.pstr s)))) := by
  have h3 : dget (get_attribute_dict_prehash b) "changed_attributes"
      = some (.vlist ((sortStrings (b.changed_attributes.map (·.1))).map
          (fun s => .prim (.pstr s)))) := by
    unfold get_attribute_dict_prehash
    rw [if_neg (by simp [henc]), if_pos hca]
    split
    · rw [dget_dinsert,
        if_neg (by decide : ¬(attr_RENDERING_BREADCRUMBS = "changed_attributes")),
        dget_dinsert, if_pos rfl]
    · rw [dget_dinsert, if_pos rfl]
  have hne : ((sortStrings (b.changed_attributes.map (·.1))).map
      (fun s => Value.prim (.pstr s))) ≠ [] := by
    have hlen : ((sortStrings (b.changed_attributes.map (·.1))).map
        (fun s => Value.prim (.pstr s))).length
        = b.changed_attributes.length := by
      simp [sortStrings, List.length_insertionSort]
    intro hcon
    rw [hcon] at hlen
    simp at hlen
    exact hca (List.length_eq_zero.mp hlen.symm)
  have hb1ca : dget (dinsert (get_attribute_dict_prehash b) attr_HASH
      (calculate_hash (get_attribute_dict_prehash b))) "changed_attributes"
      = some (.vlist ((sortStrings (b.changed_attributes.map (·.1))).map
          (fun s => .prim (.pstr s)))) := by
    rw [dget_dinsert, if_neg (by decide : ¬(attr_HASH = "changed_attributes"))]
    exact h3
  have hgad : get_attribute_dict b
      = ddelete (dinsert (get_attribute_dict_prehash b) attr_HASH
          (calculate_hash (get_attribute_dict_prehash b))) "changed_attributes" := by
    unfold get_attribute_dict
    rw [if_pos]
    rw [hb1ca]
    simp only [truthyOpt, truthy]
    simpa using hne
  refine ⟨?_, ?_, h3⟩
  · rw [hgad]
    apply dget_ddelete_self
    exact dinsert_keys_nodup _ _ (get_attribute_dict_prehash_keys_nodup b)
  · rw [hgad, dget_ddelete _ _ _
      (by decide : "changed_attributes" ≠ attr_HASH),
      dget_dinsert, if_pos rfl]

/-- Closed witness for C9 on a concrete block with one changed attribute. -/
theorem C9_witness :
    dget (get_attribute_dict
      (update_attribute (simpleBlock .resource "n" [("a", .prim (.pint 1))])
        "a" (.prim (.pint 2)) 4 [])) "changed_attributes" = none :=
  (C9_changed_attributes_hashed_then_removed
    (update_attribute (simpleBlock .resource "n" [("a", .prim (.pint 1))])
      "a" (.prim (.pint 2)) 4 [])
    (by decide) (by decide)).1

/-! ### Fingerprint determinism and sensitivity (C6) -/

theorem sorted_perm_nodupkeys_eq {α : Type} :
    ∀ (d1 d2 : List (String × α)), d1.Perm d2 →
      List.Sorted keyLe d1 → List.Sorted keyLe d2 →
      (d1.map (·.1)).Nodup → d1 = d2 := by
  intro d1
  induction d1 with
  | nil =>
    intro d2 hperm _ _ _
    exact (hperm.nil_eq).symm |>.symm ▸ rfl
  | cons a t1 ih =>
    intro d2 hperm hs1 hs2 hnd
    cases d2 with
    | nil => exact absurd hperm.symm.nil_eq (by simp)
    | cons b t2 =>
      have hab : a = b := by
        have hamem : a ∈ b :: t2 := hperm.mem_iff.mp (by simp)
        rcases List.mem_cons.mp hamem with h | hat2
        · exact h
        · have hbmem : b ∈ a :: t1 := hperm.mem_iff.mpr (by simp)
          rcases List.mem_cons.mp hbmem with h | hbt1
          · exact h.symm
          · have h1 : keyLe a b := (List.sorted_cons.mp hs1).1 b hbt1
            have h2 : keyLe b a := (List.sorted_cons.mp hs2).1 a hat2
            have hkey : a.1 = b.1 := le_antisymm h1 h2
            have : a.1 ∈ t1.map (·.1) := by
              rw [hkey]
              exact List.mem_map_of_mem (·.1) hbt1
            simp only [List.map_cons, List.nodup_cons] at hnd
            exact absurd this hnd.1
      subst hab
      have htail := hperm.cons_inv
      have hnd' : (t1.map (·.1)).Nodup := by
        simp only [List.map_cons, List.nodup_cons] at hnd
        exact hnd.2
      rw [ih t2 htail (List.sorted_cons.mp hs1).2 (List.sorted_cons.mp hs2).2 hnd']

theorem sortByKey_eq_of_perm_nodup {α : Type} (d1 d2 : List (String × α))
    (hperm : d1.Perm d2) (hnd : (d1.map (·.1)).Nodup) :
    sortByKey d1 = sortByKey d2 := by
  apply sorted_perm_nodupkeys_eq
  · exact (List.perm_insertionSort keyLe d1).trans
      (hperm.trans (List.perm_insertionSort keyLe d2).symm)
  · exact List.sorted_insertionSort keyLe d1
  · exact List.sorted_insertionSort keyLe d2
  · exact ((List.perm_insertionSort keyLe d1).map (·.1)).nodup_iff.mpr hnd

theorem dget_eq_of_perm_nodup {α : Type} (d1 d2 : List (String × α))
    (hperm : d1.Perm d2) (hnd : (d1.map (·.1)).Nodup) (k : String) :
    dget d1 k = dget d2 k := by
  have hnd2 : (d2.map (·.1)).Nodup := (hperm.map (·.1)).nodup_iff.mp hnd
  cases h : dget d1 k with
  | none =>
    rw [dget_eq_none_iff] at h
    have : k ∉ d2.map (·.1) := fun hc => h ((hperm.map (·.1)).mem_iff.mpr hc)
    exact ((dget_eq_none_iff d2 k).mpr this).symm
  | some v =>
    exact (dget_of_mem_nodup (hperm.mem_iff.mp (dget_mem h)) hnd2).symm

/-- The stored fingerprint of any block is the digest of its pre-hash export
dict (the deletion of the `changed_attributes` field never touches the hash
field). -/
theorem get_hash_eq (b : Block) :
    get_hash b = some (calculate_hash (get_attribute_dict_prehash b)) := by
  unfold get_hash get_attribute_dict
  dsimp only
  split
  · rw [dget_ddelete _ _ _ (by decide : "changed_attributes" ≠ attr_HASH),
      dget_dinsert, if_pos rfl]
  · rw [dget_dinsert, if_pos rfl]

/-- C6: the content fingerprint is deterministic and insertion-order
independent — two blocks whose export dicts at fingerprint time are equal as
sets of key/value pairs (in particular, built in any construction order,
with the sorted `changed_attributes` key list included when present) have
equal `get_hash`; and the fingerprint is injective on the export dict up to
key/value-set equality, so changing any exported value, or adding or
removing a `changed_attributes` entry, changes the hash. -/
theorem C6_hash_deterministic_and_sensitive :
    (∀ b1 b2 : Block,
      (get_attribute_dict_prehash b1).Perm (get_attribute_dict_prehash b2) →
      get_hash b1 = get_hash b2)
    ∧ (∀ b1 b2 : Block, get_hash b1 = get_hash b2 →
      ∀ k, dget (get_attribute_dict_prehash b1) k
        = dget (get_attribute_dict_prehash b2) k) := by
  constructor
  · intro b1 b2 hperm
    rw [get_hash_eq, get_hash_eq]
    unfold calculate_hash
    rw [sortByKey_eq_of_perm_nodup _ _ hperm (get_attribute_dict_prehash_keys_nodup b1)]
  · intro b1 b2 hhash k
    have h1 := get_hash_eq b1
    have h2 := get_hash_eq b2
    rw [h1, h2] at hhash
    injection hhash with hhash
    unfold calculate_hash at hhash
    injection hhash with hhash
    have q1 : (sortByKey (get_attribute_dict_prehash b1)).Perm
        (get_attribute_dict_prehash b1) := List.perm_insertionSort keyLe _
    have q2 : (sortByKey (get_attribute_dict_prehash b2)).Perm
        (get_attribute_dict_prehash b2) := List.perm_insertionSort keyLe _
    rw [hhash] at q1
    exact dget_eq_of_perm_nodup _ _ (q1.symm.trans q2)
      (get_attribute_dict_prehash_keys_nodup b1) k

/-- Closed witness for C6: two blocks whose attribute dicts hold the same
entries in different insertion order have equal fingerprints. -/
theorem C6_witness :
    get_hash (simpleBlock .resource "n"
      [("a", .prim (.pint 1)), ("b", .prim (.pint 2))])
    = get_hash (simpleBlock .resource "n"
      [("b", .prim (.pint 2)), ("a", .prim (.pint 1))]) :=
  C6_hash_deterministic_and_sensitive.1
    (simpleBlock .resource "n" [("a", .prim (.pint 1)), ("b", .prim (.pint 2))])
    (simpleBlock .resource "n" [("b", .prim (.pint 2)), ("a", .prim (.pint 1))])
    (by decide)

/-! ### C4: the nested form reconstructed by the flatten transform

`get_inner_attributes` stores, under the root key itself, a rebuilt copy of
the nested value in which exactly one singleton-list unwrap happens at the
entry of each recursive visit.  `reconstructValue` is that rebuild, defined
on its own; `specUnwrapAll` is the *claimed* shape (every singleton sequence
unwrapped at every level, to a fixed point); they differ on a singleton list
whose sole element is again a singleton list. -/

/-- `Option`-monadic map of a partial function over a list of values. -/
def optMapList (rec : Value → Option Value) : List Value → Option (List Value)
  | [] => some []
  | x :: xs =>
    match rec x with
    | none => none
    | some y => (optMapList rec xs).map (fun ys => y :: ys)

/-- `Option`-monadic map of a partial function over the values of a dict. -/
def optMapDict (rec : Value → Option Value) :
    List (String × Value) → Option (List (String × Value))
  | [] => some []
  | (k, v) :: r =>
    match rec v with
    | none => none
    | some w => (optMapDict rec r).map (fun ws => (k, w) :: ws)

/-- Fueled rebuild performed by `get_inner_attributes`: one singleton unwrap
at the entry of each visit, then children rebuilt recursively. -/
def reconF : Nat → Value → Option Value
  | 0, _ => none
  | f + 1, v =>
    match unwrapSingleton v with
    | .vlist l => (optMapList (reconF f) l).map .vlist
    | .vdict d => (optMapDict (reconF f) d).map .vdict
    | w => some w

/-- The nested value as rebuilt under the root key by the flatten transform. -/
def reconstructValue (v : Value) : Value := (reconF (vsize v + 1) v).getD v

/-- The claim's reading of the reconstruction: every singleton sequence, at
the root and at every nesting level, unwrapped to its sole element (to a
fixed point). -/
def specUnwrapAllF : Nat → Value → Option Value
  | 0, _ => none
  | f + 1, .vlist [x] => specUnwrapAllF f x
  | f + 1, .vlist l => (optMapList (specUnwrapAllF f) l).map .vlist
  | f + 1, .vdict d => (optMapDict (specUnwrapAllF f) d).map .vdict
  | _ + 1, w => some w

/-- Full singleton unwrapping, as the claim asserts it. -/
def specUnwrapAll (v : Value) : Value := (specUnwrapAllF (vsize v + 1) v).getD v

/-- C4 counterexample: at the explicit input `[[5]]` under root key `"k"`,
the flattened mapping's root entry is `[5]` — the inner singleton list is
*not* unwrapped, because each recursive visit unwraps at most once — so the
read-back differs from the claimed fully-unwrapped shape `5`; and re-applying
the transform to the read-back `[5]` yields `{k: 5}`, not the original
flattened mapping `{k: [5], k.0: 5}`, refuting the claimed idempotence. -/
theorem C4_roundtrip_counterexample :
    dget (get_inner_attributes "k" (.vlist [.vlist [.prim (.pint 5)]])) "k"
      = some (.vlist [.prim (.pint 5)])
    ∧ specUnwrapAll (.vlist [.vlist [.prim (.pint 5)]]) = .prim (.pint 5)
    ∧ (Value.vlist [.prim (.pint 5)]) ≠ .prim (.pint 5)
    ∧ get_inner_attributes "k" (.vlist [.prim (.pint 5)])
      ≠ get_inner_attributes "k" (.vlist [.vlist [.prim (.pint 5)]]) := by
  refine ⟨by decide, by decide, by decide, by decide⟩

theorem optMapList_congr (r1 r2 : Value → Option Value) (l : List Value)
    (h : ∀ x ∈ l, r1 x = r2 x) : optMapList r1 l = optMapList r2 l := by
  induction l with
  | nil => rfl
  | cons x xs ih =>
    simp only [optMapList, h x (by simp), ih (fun z hz => h z (by simp [hz]))]

theorem optMapDict_congr (r1 r2 : Value → Option Value) (d : List (String × Value))
    (h : ∀ kv ∈ d, r1 kv.2 = r2 kv.2) : optMapDict r1 d = optMapDict r2 d := by
  induction d with
  | nil => rfl
  | cons kv r ih =>
    obtain ⟨k, v⟩ := kv
    simp only [optMapDict, h (k, v) (by simp), ih (fun z hz => h z (by simp [hz]))]

theorem optMapList_eq_map (rec : Value → Option Value) (g : Value → Value)
    (l : List Value) (h : ∀ x ∈ l, rec x = some (g x)) :
    optMapList rec l = some (l.map g) := by
  induction l with
  | nil => rfl
  | cons x xs ih =>
    simp only [optMapList, h x (by simp), ih (fun z hz => h z (by simp [hz]))]
    rfl

theorem optMapDict_eq_map (rec : Value → Option Value) (g : Value → Value)
    (d : List (String × Value)) (h : ∀ kv ∈ d, rec kv.2 = some (g kv.2)) :
    optMapDict rec d = some (d.map (fun kv => (kv.1, g kv.2))) := by
  induction d with
  | nil => rfl
  | cons kv r ih =>
    obtain ⟨k, v⟩ := kv
    simp only [optMapDict, h (k, v) (by simp), ih (fun z hz => h z (by simp [hz]))]
    rfl

theorem vsize_lt_of_unwrap_child_list {v : Value} {l : List Value} {x : Value}
    (hav : unwrapSingleton v = .vlist l) (hx : x ∈ l) : vsize x < vsize v := by
  have h1 : vsize x < vsize (Value.vlist l) := vsize_lt_vlist hx
  have h2 := vsize_unwrapSingleton_le v
  rw [hav] at h2
  omega

theorem vsize_lt_of_unwrap_child_dict {v : Value} {d : List (String × Value)}
    {kv : String × Value} (hav : unwrapSingleton v = .vdict d) (hkv : kv ∈ d) :
    vsize kv.2 < vsize v := by
  have h1 : vsize kv.2 < vsize (Value.vdict d) := by
    obtain ⟨k, w⟩ := kv
    exact vsize_lt_vdict hkv
  have h2 := vsize_unwrapSingleton_le v
  rw [hav] at h2
  omega

/-- `uiaF` at successor fuel on a list: the list branch body. -/
theorem uiaF_list (f : Nat) (attribute_key : String) (l : List Value)
    (value_to_update : Value) :
    uiaF (f + 1) attribute_key (.vlist l) value_to_update =
      uiaListBody (uiaF f) attribute_key l value_to_update := rfl

/-- `uiaF` at successor fuel on a dict: the optional step-1 flat write
followed by the dict branch body. -/
theorem uiaF_dict (f : Nat) (attribute_key : String) (d : PyDict)
    (value_to_update : Value) :
    uiaF (f + 1) attribute_key (.vdict d) value_to_update =
      uiaDictBody (uiaF f) attribute_key
        (if truthyOpt (dget d attribute_key) then
          dinsert d attribute_key value_to_update
         else d) value_to_update := rfl

/-- `uiaF` at successor fuel on a primitive: a TypeError propagates either
way, leaving the value unchanged. -/
theorem uiaF_prim (f : Nat) (attribute_key : String) (p : Prim)
    (value_to_update : Value) :
    uiaF (f + 1) attribute_key (.prim p) value_to_update =
      some (.prim p, true) := by
  show (if (splitDot attribute_key).length = 1 then some (Value.prim p, true)
    else some (Value.prim p, true)) = some (Value.prim p, true)
  exact ite_self _

/-- One-step unfolding of `reconF` at successor fuel. -/
theorem reconF_succ (f : Nat) (v : Value) :
    reconF (f + 1) v =
      match unwrapSingleton v with
      | .vlist l => (optMapList (reconF f) l).map .vlist
      | .vdict d => (optMapDict (reconF f) d).map .vdict
      | w => some w := rfl

theorem reconF_isSome : ∀ (f : Nat) (v : Value), vsize v < f →
    (reconF f v).isSome := by
  intro f
  induction f with
  | zero => intro v h; omega
  | succ f ih =>
    intro v h
    rw [reconF_succ]
    cases hav : unwrapSingleton v with
    | prim p => simp
    | vlist l =>
      dsimp only
      rw [optMapList_eq_map (reconF f) (fun x => (reconF f x).getD (.prim .pnull)) l
        (fun x hx => by
          have hlt : vsize x < vsize v := vsize_lt_of_unwrap_child_list hav hx
          have := ih x (by omega)
          cases hc : reconF f x with
          | none => rw [hc] at this; simp at this
          | some y => simp [hc])]
      simp
    | vdict d =>
      dsimp only
      rw [optMapDict_eq_map (reconF f) (fun x => (reconF f x).getD (.prim .pnull)) d
        (fun kv hkv => by
          have hlt : vsize kv.2 < vsize v := vsize_lt_of_unwrap_child_dict hav hkv
          have := ih kv.2 (by omega)
          cases hc : reconF f kv.2 with
          | none => rw [hc] at this; simp at this
          | some y => simp [hc])]
      simp

theorem reconF_irrel : ∀ (f1 f2 : Nat) (v : Value), vsize v < f1 → vsize v < f2 →
    reconF f1 v = reconF f2 v := by
  intro f1
  induction f1 with
  | zero => intro f2 v h1 h2; omega
  | succ f1 ih =>
    intro f2 v h1 h2
    cases f2 with
    | zero => omega
    | succ f2 =>
      rw [reconF_succ, reconF_succ]
      cases hav : unwrapSingleton v with
      | prim p => rfl
      | vlist l =>
        dsimp only
        rw [optMapList_congr (reconF f1) (reconF f2) l (fun x hx => by
          have hlt : vsize x < vsize v := vsize_lt_of_unwrap_child_list hav hx
          exact ih f2 x (by omega) (by omega))]
      | vdict d =>
        dsimp only
        rw [optMapDict_congr (reconF f1) (reconF f2) d (fun kv hkv => by
          have hlt : vsize kv.2 < vsize v := vsize_lt_of_unwrap_child_dict hav hkv
          exact ih f2 kv.2 (by omega) (by omega))]

theorem reconF_eq (f : Nat) (v : Value) (h : vsize v < f) :
    reconF f v = some (reconstructValue v) := by
  have hirr := reconF_irrel f (vsize v + 1) v h (by omega)
  have hsome := reconF_isSome (vsize v + 1) v (by omega)
  unfold reconstructValue
  rw [hirr]
  cases hc : reconF (vsize v + 1) v with
  | none => rw [hc] at hsome; simp at hsome
  | some y => simp

/-- Unfolding characterization of the rebuild. -/
theorem reconstructValue_unfold (v : Value) :
    reconstructValue v =
      match unwrapSingleton v with
      | .vlist l => .vlist (l.map reconstructValue)
      | .vdict d => .vdict (d.map (fun kv => (kv.1, reconstructValue kv.2)))
      | w => w := by
  have h0 : reconF (vsize v + 1) v = some (reconstructValue v) :=
    reconF_eq _ v (by omega)
  rw [reconF_succ] at h0
  cases hav : unwrapSingleton v with
  | prim p =>
    rw [hav] at h0
    dsimp only at h0
    injection h0 with h0
    exact h0.symm
  | vlist l =>
    rw [hav] at h0
    dsimp only at h0
    rw [optMapList_eq_map _ reconstructValue l (fun x hx =>
      reconF_eq _ x (by
        have := vsize_lt_of_unwrap_child_list hav hx
        omega))] at h0
    simp only [Option.map] at h0
    injection h0 with h0
    exact h0.symm
  | vdict d =>
    rw [hav] at h0
    dsimp only at h0
    rw [optMapDict_eq_map _ reconstructValue d (fun kv hkv =>
      reconF_eq _ kv.2 (by
        have := vsize_lt_of_unwrap_child_dict hav hkv
        omega))] at h0
    simp only [Option.map] at h0
    injection h0 with h0
    exact h0.symm

/-- One-step unfolding of `giaF` at successor fuel. -/
theorem giaF_succ (f : Nat) (k : String) (v : Value) :
    giaF (f + 1) k v =
      match unwrapSingleton v with
      | .vlist l =>
          giaListLoop (giaF f) k 0 l
            [(k, .vlist (List.replicate l.length (.prim .pnull)))]
      | .vdict d => giaDictLoop (giaF f) k d [(k, .vdict [])]
      | av => some [(k, av)] := rfl

theorem giaListLoop_congr (r1 r2 : String → Value → Option PyDict) (k : String)
    (elems : List Value) (h : ∀ x ∈ elems, ∀ key, r1 key x = r2 key x) :
    ∀ i acc, giaListLoop r1 k i elems acc = giaListLoop r2 k i elems acc := by
  induction elems with
  | nil => intro i acc; rfl
  | cons x rest ih =>
    intro i acc
    simp only [giaListLoop, h x (by simp)]
    cases r2 (k ++ "." ++ toString i) x with
    | none => rfl
    | some child => exact ih (fun z hz key => h z (by simp [hz]) key) (i + 1) _

theorem giaDictLoop_congr (r1 r2 : String → Value → Option PyDict) (k : String)
    (entries : List (String × Value))
    (h : ∀ kv ∈ entries, ∀ key, r1 key kv.2 = r2 key kv.2) :
    ∀ acc, giaDictLoop r1 k entries acc = giaDictLoop r2 k entries acc := by
  induction entries with
  | nil => intro acc; rfl
  | cons kv rest ih =>
    obtain ⟨ek, ev⟩ := kv
    intro acc
    simp only [giaDictLoop, h (ek, ev) (by simp)]
    cases r2 (k ++ "." ++ ek) ev with
    | none => rfl
    | some child => exact ih (fun z hz key => h z (by simp [hz]) key) _

theorem giaF_irrel : ∀ (f1 f2 : Nat) (k : String) (v : Value),
    vsize v < f1 → vsize v < f2 → giaF f1 k v = giaF f2 k v := by
  intro f1
  induction f1 with
  | zero => intro f2 k v h1 h2; omega
  | succ f1 ih =>
    intro f2 k v h1 h2
    cases f2 with
    | zero => omega
    | succ f2 =>
      rw [giaF_succ, giaF_succ]
      cases hav : unwrapSingleton v with
      | prim p => rfl
      | vlist l =>
        dsimp only
        exact giaListLoop_congr _ _ k l (fun x hx key => by
          have hlt : vsize x < vsize v := vsize_lt_of_unwrap_child_list hav hx
          exact ih f2 key x (by omega) (by omega)) 0 _
      | vdict d =>
        dsimp only
        exact giaDictLoop_congr _ _ k d (fun kv hkv key => by
          have hlt : vsize kv.2 < vsize v := vsize_lt_of_unwrap_child_dict hav hkv
          exact ih f2 key kv.2 (by omega) (by omega)) _

theorem giaF_eq (f : Nat) (k : String) (v : Value) (h : vsize v < f) :
    giaF f k v = some (get_inner_attributes k v) := by
  have hirr := giaF_irrel f (vsize v + 1) k v h (by omega)
  have hsome := giaF_isSome (vsize v + 1) k v (by omega)
  unfold get_inner_attributes
  rw [hirr]
  cases hc : giaF (vsize v + 1) k v with
  | none => rw [hc] at hsome; simp at hsome
  | some y => simp

theorem take_set_succ {α : Type} (l : List α) (i : Nat) (v : α) (h : i < l.length) :
    (l.set i v).take (i + 1) = l.take i ++ [v] := by
  rw [List.set_eq_take_cons_drop v h, List.take_append_eq_append_take]
  simp [List.length_take, Nat.min_eq_left (Nat.le_of_lt h)]

theorem mem_keys_dupdate {α : Type} (new d : List (String × α)) (key : String) :
    key ∈ (dupdate d new).map (·.1) ↔ key ∈ d.map (·.1) ∨ key ∈ new.map (·.1) := by
  induction new generalizing d with
  | nil => simp [dupdate]
  | cons kv rest ih =>
    obtain ⟨k1, v1⟩ := kv
    simp only [dupdate, List.foldl_cons]
    rw [show List.foldl (fun acc kv => dinsert acc kv.1 kv.2) (dinsert d k1 v1) rest
      = dupdate (dinsert d k1 v1) rest from rfl, ih, mem_keys_dinsert]
    simp only [List.map_cons, List.mem_cons]
    tauto

theorem dget_dupdate_nodup {α : Type} (new d : List (String × α)) (key : String)
    (hnd : (new.map (·.1)).Nodup) :
    dget (dupdate d new) key =
      match dget new key with
      | some v => some v
      | none => dget d key := by
  induction new generalizing d with
  | nil => simp [dupdate, dget]
  | cons kv rest ih =>
    obtain ⟨k1, v1⟩ := kv
    simp only [List.map_cons, List.nodup_cons] at hnd
    simp only [dupdate, List.foldl_cons]
    rw [show List.foldl (fun acc kv => dinsert acc kv.1 kv.2) (dinsert d k1 v1) rest
      = dupdate (dinsert d k1 v1) rest from rfl, ih _ hnd.2]
    by_cases h1 : k1 = key
    · subst h1
      have hrest : dget rest k1 = none := (dget_eq_none_iff rest k1).mpr hnd.1
      have hhead : dget ((k1, v1) :: rest) k1 = some v1 := by simp [dget]
      rw [hrest, hhead, dget_dinsert, if_pos rfl]
    · simp only [dget, if_neg h1]
      cases dget rest key with
      | some v => rfl
      | none => rw [dget_dinsert, if_neg h1]

theorem dinsert_eq_append_of_not_mem {α : Type} (d : List (String × α)) (k : String)
    (v : α) (h : k ∉ d.map (·.1)) : dinsert d k v = d ++ [(k, v)] := by
  induction d with
  | nil => rfl
  | cons kv rest ih =>
    obtain ⟨k1, v1⟩ := kv
    simp only [List.map_cons, List.mem_cons] at h
    push_neg at h
    have hne : ¬(k1 = k) := fun hh => h.1 hh.symm
    simp only [dinsert, if_neg hne, List.cons_append]
    rw [ih h.2]

theorem rootSet_keys_nodup {acc : PyDict} (k : String) (fn : Value → Value)
    (h : (acc.map (·.1)).Nodup) : ((rootSet acc k fn).map (·.1)).Nodup := by
  unfold rootSet
  cases dget acc k with
  | none => exact h
  | some rv => exact dinsert_keys_nodup _ _ h

theorem giaListLoop_keys_nodup (rec : String → Value → Option PyDict) (k : String) :
    ∀ (elems : List Value) (i : Nat) (acc out : PyDict),
      (acc.map (·.1)).Nodup → giaListLoop rec k i elems acc = some out →
      (out.map (·.1)).Nodup := by
  intro elems
  induction elems with
  | nil =>
    intro i acc out h hloop
    simp only [giaListLoop] at hloop
    injection hloop with hloop
    rw [← hloop]
    exact h
  | cons x rest ih =>
    intro i acc out h hloop
    simp only [giaListLoop] at hloop
    cases hc : rec (k ++ "." ++ toString i) x with
    | none => rw [hc] at hloop; cases hloop
    | some child =>
      rw [hc] at hloop
      exact ih (i + 1) _ out
        (rootSet_keys_nodup k _ (dupdate_keys_nodup child h)) hloop

theorem giaDictLoop_keys_nodup (rec : String → Value → Option PyDict) (k : String) :
    ∀ (entries : List (String × Value)) (acc out : PyDict),
      (acc.map (·.1)).Nodup → giaDictLoop rec k entries acc = some out →
      (out.map (·.1)).Nodup := by
  intro entries
  induction entries with
  | nil =>
    intro acc out h hloop
    simp only [giaDictLoop] at hloop
    injection hloop with hloop
    rw [← hloop]
    exact h
  | cons kv rest ih =>
    obtain ⟨ek, ev⟩ := kv
    intro acc out h hloop
    simp only [giaDictLoop] at hloop
    cases hc : rec (k ++ "." ++ ek) ev with
    | none => rw [hc] at hloop; cases hloop
    | some child =>
      rw [hc] at hloop
      exact ih _ out (rootSet_keys_nodup k _ (dupdate_keys_nodup child h)) hloop

theorem giaF_keys_nodup : ∀ (f : Nat) (k : String) (v : Value) (gd : PyDict),
    giaF f k v = some gd → (gd.map (·.1)).Nodup := by
  intro f
  induction f with
  | zero => intro k v gd h; cases h
  | succ f ih =>
    intro k v gd h
    rw [giaF_succ] at h
    cases hav : unwrapSingleton v with
    | prim p =>
      rw [hav] at h
      dsimp only at h
      injection h with h
      rw [← h]
      simp
    | vlist l =>
      rw [hav] at h
      dsimp only at h
      exact giaListLoop_keys_nodup _ _ l 0 _ gd (by simp) h
    | vdict d =>
      rw [hav] at h
      dsimp only at h
      exact giaDictLoop_keys_nodup _ _ d _ gd (by simp) h

theorem get_inner_attributes_keys_nodup (k : String) (v : Value) :
    ((get_inner_attributes k v).map (·.1)).Nodup := by
  have h := giaF_eq (vsize v + 1) k v (by omega)
  exact giaF_keys_nodup _ _ _ _ h

theorem mem_keys_rootSet {acc : PyDict} (k : String) (fn : Value → Value)
    {key : String} (h : key ∈ (rootSet acc k fn).map (·.1)) :
    key = k ∨ key ∈ acc.map (·.1) := by
  unfold rootSet at h
  cases hg : dget acc k with
  | none =>
    rw [hg] at h
    exact Or.inr h
  | some rv =>
    rw [hg] at h
    exact (mem_keys_dinsert _ _ _ _).mp h

theorem length_le_inner_key (k s : String) :
    k.length + 1 ≤ (k ++ "." ++ s).length := by
  rw [String.length_append, String.length_append]
  have : ("." : String).length = 1 := rfl
  omega

theorem giaListLoop_keys_len (rec : String → Value → Option PyDict) (k : String)
    (hrec : ∀ x key cd, rec key x = some cd →
      ∀ kk ∈ cd.map (·.1), key.length ≤ kk.length) :
    ∀ (elems : List Value) (i : Nat) (acc out : PyDict),
      (∀ kk ∈ acc.map (·.1), k.length ≤ kk.length) →
      giaListLoop rec k i elems acc = some out →
      ∀ kk ∈ out.map (·.1), k.length ≤ kk.length := by
  intro elems
  induction elems with
  | nil =>
    intro i acc out hacc hloop
    simp only [giaListLoop] at hloop
    injection hloop with hloop
    rw [← hloop]
    exact hacc
  | cons x rest ih =>
    intro i acc out hacc hloop
    simp only [giaListLoop] at hloop
    cases hc : rec (k ++ "." ++ toString i) x with
    | none => rw [hc] at hloop; cases hloop
    | some child =>
      rw [hc] at hloop
      refine ih (i + 1) _ out ?_ hloop
      intro kk hkk
      rcases mem_keys_rootSet k _ hkk with h | h
      · rw [h]
      · rcases (mem_keys_dupdate _ _ _).mp h with h | h
        · exact hacc kk h
        · have := hrec x _ _ hc kk h
          have h2 := length_le_inner_key k (toString i)
          omega

theorem giaDictLoop_keys_len (rec : String → Value → Option PyDict) (k : String)
    (hrec : ∀ x key cd, rec key x = some cd →
      ∀ kk ∈ cd.map (·.1), key.length ≤ kk.length) :
    ∀ (entries : List (String × Value)) (acc out : PyDict),
      (∀ kk ∈ acc.map (·.1), k.length ≤ kk.length) →
      giaDictLoop rec k entries acc = some out →
      ∀ kk ∈ out.map (·.1), k.length ≤ kk.length := by
  intro entries
  induction entries with
  | nil =>
    intro acc out hacc hloop
    simp only [giaDictLoop] at hloop
    injection hloop with hloop
    rw [← hloop]
    exact hacc
  | cons kv rest ih =>
    obtain ⟨ek, ev⟩ := kv
    intro acc out hacc hloop
    simp only [giaDictLoop] at hloop
    cases hc : rec (k ++ "." ++ ek) ev with
    | none => rw [hc] at hloop; cases hloop
    | some child =>
      rw [hc] at hloop
      refine ih _ out ?_ hloop
      intro kk hkk
      rcases mem_keys_rootSet k _ hkk with h | h
      · rw [h]
      · rcases (mem_keys_dupdate _ _ _).mp h with h | h
        · exact hacc kk h
        · have := hrec ev _ _ hc kk h
          have h2 := length_le_inner_key k ek
          omega

theorem giaF_keys_len : ∀ (f : Nat) (k : String) (v : Value) (gd : PyDict),
    giaF f k v = some gd → ∀ kk ∈ gd.map (·.1), k.length ≤ kk.length := by
  intro f
  induction f with
  | zero => intro k v gd h; cases h
  | succ f ih =>
    intro k v gd h
    rw [giaF_succ] at h
    cases hav : unwrapSingleton v with
    | prim p =>
      rw [hav] at h
      dsimp only at h
      injection h with h
      rw [← h]
      intro kk hkk
      simp at hkk
      rw [hkk]
    | vlist l =>
      rw [hav] at h
      dsimp only at h
      exact giaListLoop_keys_len _ k (fun x key cd hcd => ih key x cd hcd) l 0 _ gd
        (by intro kk hkk; simp at hkk; rw [hkk]) h
    | vdict d =>
      rw [hav] at h
      dsimp only at h
      exact giaDictLoop_keys_len _ k (fun x key cd hcd => ih key x cd hcd) d _ gd
        (by intro kk hkk; simp at hkk; rw [hkk]) h

/-- All keys of a flattened dict extend the root key in length. -/
theorem get_inner_attributes_keys_len (k : String) (v : Value) :
    ∀ kk ∈ (get_inner_attributes k v).map (·.1), k.length ≤ kk.length :=
  giaF_keys_len (vsize v + 1) k v _ (giaF_eq (vsize v + 1) k v (by omega))

/-- The flattened dict of an inner key never contains the outer root key. -/
theorem get_inner_attributes_outer_absent (k s : String) (x : Value) :
    dget (get_inner_attributes (k ++ "." ++ s) x) k = none := by
  rw [dget_eq_none_iff]
  intro hmem
  have h1 := get_inner_attributes_keys_len (k ++ "." ++ s) x k hmem
  have h2 := length_le_inner_key k s
  omega

/-- Well-formedness of an embedded Python value: every mapping in it has
pairwise-distinct keys (true of every real Python dict; association lists
admit junk). -/
inductive WFValue : Value → Prop where
  | prim (p : Prim) : WFValue (.prim p)
  | vlist (l : List Value) (h : ∀ x ∈ l, WFValue x) : WFValue (.vlist l)
  | vdict (d : List (String × Value)) (hnd : (d.map (·.1)).Nodup)
      (h : ∀ kv ∈ d, WFValue kv.2) : WFValue (.vdict d)

/-- No singleton sequence in the value directly contains a singleton
sequence (the condition under which one unwrap per visit reaches a fixed
point). -/
inductive NoNestedSingleton : Value → Prop where
  | prim (p : Prim) : NoNestedSingleton (.prim p)
  | vlist (l : List Value) (h1 : ∀ x ∈ l, NoNestedSingleton x)
      (h2 : ∀ x y, l = [x] → x ≠ .vlist [y]) : NoNestedSingleton (.vlist l)
  | vdict (d : List (String × Value)) (h : ∀ kv ∈ d, NoNestedSingleton kv.2) :
      NoNestedSingleton (.vdict d)

theorem WFValue_unwrap {v : Value} (h : WFValue v) : WFValue (unwrapSingleton v) := by
  cases h with
  | prim p => exact .prim p
  | vlist l hl =>
    cases l with
    | nil => exact .vlist [] (by simp)
    | cons x xs =>
      cases xs with
      | nil => exact hl x (by simp)
      | cons y ys => exact .vlist _ hl
  | vdict d hnd hd => exact .vdict d hnd hd

theorem NoNestedSingleton_unwrap {v : Value} (h : NoNestedSingleton v) :
    NoNestedSingleton (unwrapSingleton v) := by
  cases h with
  | prim p => exact .prim p
  | vlist l h1 h2 =>
    cases l with
    | nil => exact .vlist [] (by simp) (by simp)
    | cons x xs =>
      cases xs with
      | nil => exact h1 x (by simp)
      | cons y ys => exact .vlist _ h1 h2
  | vdict d hd => exact .vdict d hd

theorem nns_unwrap_list_len {v : Value} {l : List Value}
    (h : NoNestedSingleton v) (hav : unwrapSingleton v = .vlist l) :
    l.length ≠ 1 := by
  intro hlen
  obtain ⟨y, rfl⟩ : ∃ y, l = [y] := by
    cases l with
    | nil => simp at hlen
    | cons a t =>
      cases t with
      | nil => exact ⟨a, rfl⟩
      | cons b t2 => simp at hlen
  cases h with
  | prim p => simp [unwrapSingleton] at hav
  | vdict d hd => simp [unwrapSingleton] at hav
  | vlist l0 h1 h2 =>
    cases l0 with
    | nil =>
      simp [unwrapSingleton] at hav
    | cons x xs =>
      cases xs with
      | nil =>
        have hx : x = Value.vlist [y] := by
          simpa [unwrapSingleton] using hav
        exact h2 x y rfl hx
      | cons z zs =>
        rw [show unwrapSingleton (.vlist (x :: z :: zs)) = .vlist (x :: z :: zs)
          from rfl] at hav
        injection hav with hav
        rw [← hav] at hlen
        simp at hlen

theorem unwrapSingleton_of_len_ne_one {l : List Value} (h : l.length ≠ 1) :
    unwrapSingleton (.vlist l) = .vlist l := by
  cases l with
  | nil => rfl
  | cons x xs =>
    cases xs with
    | nil => simp at h
    | cons y ys => rfl

theorem lsize_map_le (g : Value → Value) (l : List Value)
    (h : ∀ x ∈ l, vsize (g x) ≤ vsize x) : lsize (l.map g) ≤ lsize l := by
  induction l with
  | nil => simp
  | cons x xs ih =>
    simp only [List.map_cons, lsize]
    have h1 := h x (by simp)
    have h2 := ih (fun z hz => h z (by simp [hz]))
    omega

theorem dsize_map_le (g : Value → Value) (d : List (String × Value))
    (h : ∀ kv ∈ d, vsize (g kv.2) ≤ vsize kv.2) :
    dsize (d.map (fun kv => (kv.1, g kv.2))) ≤ dsize d := by
  induction d with
  | nil => simp
  | cons kv r ih =>
    obtain ⟨k, v⟩ := kv
    simp only [List.map_cons, dsize]
    have h1 : vsize (g v) ≤ vsize v := by simpa using h (k, v) (by simp)
    have h2 := ih (fun z hz => h z (by simp [hz]))
    omega

theorem vsize_recon_le : ∀ (n : Nat) (v : Value), vsize v ≤ n →
    vsize (reconstructValue v) ≤ vsize v := by
  intro n
  induction n with
  | zero =>
    intro v h
    have := vsize_pos v
    omega
  | succ n ih =>
    intro v h
    rw [reconstructValue_unfold]
    have hun := vsize_unwrapSingleton_le v
    cases hav : unwrapSingleton v with
    | prim p =>
      rw [hav] at hun
      exact hun
    | vlist l =>
      rw [hav] at hun
      dsimp only
      have hmap : lsize (l.map reconstructValue) ≤ lsize l := by
        apply lsize_map_le
        intro x hx
        have hlt : vsize x < vsize v := vsize_lt_of_unwrap_child_list hav hx
        exact ih x (by omega)
      simp only [vsize] at hun ⊢
      omega
    | vdict d =>
      rw [hav] at hun
      dsimp only
      have hmap : dsize (d.map (fun kv => (kv.1, reconstructValue kv.2))) ≤ dsize d := by
        apply dsize_map_le
        intro kv hkv
        have hlt : vsize kv.2 < vsize v := vsize_lt_of_unwrap_child_dict hav hkv
        exact ih kv.2 (by omega)
      simp only [vsize] at hun ⊢
      omega

theorem giaListLoop_root (f : Nat) (k : String) :
    ∀ (elems : List Value) (i : Nat) (acc : PyDict) (cur : List Value),
      dget acc k = some (.vlist cur) →
      cur.length = i + elems.length →
      (∀ x ∈ elems, vsize x < f) →
      (∀ x ∈ elems, ∀ key, dget (get_inner_attributes key x) key
        = some (reconstructValue x)) →
      ∃ out, giaListLoop (giaF f) k i elems acc = some out ∧
        dget out k = some (.vlist (cur.take i ++ elems.map reconstructValue)) := by
  intro elems
  induction elems with
  | nil =>
    intro i acc cur hacck hlen hsz hroot
    refine ⟨acc, rfl, ?_⟩
    rw [List.take_of_length_le (by simp at hlen; omega), List.map_nil, List.append_nil]
    exact hacck
  | cons x rest ih =>
    intro i acc cur hacck hlen hsz hroot
    have hcd : giaF f (k ++ "." ++ toString i) x
        = some (get_inner_attributes (k ++ "." ++ toString i) x) :=
      giaF_eq f _ x (hsz x (by simp))
    have hnodupcd := get_inner_attributes_keys_nodup (k ++ "." ++ toString i) x
    have hacc1k : dget (dupdate acc (get_inner_attributes (k ++ "." ++ toString i) x)) k
        = some (.vlist cur) := by
      rw [dget_dupdate_nodup _ _ _ hnodupcd,
        get_inner_attributes_outer_absent k (toString i) x]
      exact hacck
    have hacc1ik : dget (dupdate acc (get_inner_attributes (k ++ "." ++ toString i) x))
        (k ++ "." ++ toString i) = some (reconstructValue x) := by
      rw [dget_dupdate_nodup _ _ _ hnodupcd, hroot x (by simp) (k ++ "." ++ toString i)]
    simp only [giaListLoop]
    rw [hcd]
    dsimp only
    rw [hacc1ik]
    dsimp only [Option.getD]
    have hrs : rootSet (dupdate acc (get_inner_attributes (k ++ "." ++ toString i) x)) k
        (fun rv => match rv with
          | Value.vlist l => Value.vlist (l.set i (reconstructValue x))
          | rv => rv)
        = dinsert (dupdate acc (get_inner_attributes (k ++ "." ++ toString i) x)) k
            (.vlist (cur.set i (reconstructValue x))) := by
      unfold rootSet
      rw [hacc1k]
    rw [hrs]
    have hacc2k : dget (dinsert (dupdate acc
        (get_inner_attributes (k ++ "." ++ toString i) x)) k
          (.vlist (cur.set i (reconstructValue x)))) k
        = some (.vlist (cur.set i (reconstructValue x))) := by
      rw [dget_dinsert, if_pos rfl]
    obtain ⟨out, hloop, hout⟩ := ih (i + 1) _ (cur.set i (reconstructValue x)) hacc2k
      (by simp only [List.length_set]; simp at hlen; omega)
      (fun z hz => hsz z (by simp [hz]))
      (fun z hz key => hroot z (by simp [hz]) key)
    refine ⟨out, hloop, ?_⟩
    rw [hout, take_set_succ cur i (reconstructValue x) (by simp at hlen; omega)]
    simp

theorem giaDictLoop_root (f : Nat) (k : String) :
    ∀ (entries : List (String × Value)) (acc : PyDict) (rootd : List (String × Value)),
      dget acc k = some (.vdict rootd) →
      ((entries.map (·.1)).Nodup) →
      (∀ ek ∈ entries.map (·.1), ek ∉ rootd.map (·.1)) →
      (∀ kv ∈ entries, vsize kv.2 < f) →
      (∀ kv ∈ entries, ∀ key, dget (get_inner_attributes key kv.2) key
        = some (reconstructValue kv.2)) →
      ∃ out, giaDictLoop (giaF f) k entries acc = some out ∧
        dget out k = some (.vdict (rootd
          ++ entries.map (fun kv => (kv.1, reconstructValue kv.2)))) := by
  intro entries
  induction entries with
  | nil =>
    intro acc rootd hacck hnd hfresh hsz hroot
    exact ⟨acc, rfl, by simpa using hacck⟩
  | cons kv rest ih =>
    obtain ⟨ek, ev⟩ := kv
    intro acc rootd hacck hnd hfresh hsz hroot
    have hcd : giaF f (k ++ "." ++ ek) ev
        = some (get_inner_attributes (k ++ "." ++ ek) ev) :=
      giaF_eq f _ ev (hsz (ek, ev) (by simp))
    have hnodupcd := get_inner_attributes_keys_nodup (k ++ "." ++ ek) ev
    have hacc1k : dget (dupdate acc (get_inner_attributes (k ++ "." ++ ek) ev)) k
        = some (.vdict rootd) := by
      rw [dget_dupdate_nodup _ _ _ hnodupcd,
        get_inner_attributes_outer_absent k ek ev]
      exact hacck
    have hacc1ik : dget (dupdate acc (get_inner_attributes (k ++ "." ++ ek) ev))
        (k ++ "." ++ ek) = some (reconstructValue ev) := by
      rw [dget_dupdate_nodup _ _ _ hnodupcd]
      have := hroot (ek, ev) (by simp) (k ++ "." ++ ek)
      simp only at this
      rw [this]
    simp only [giaDictLoop]
    rw [hcd]
    dsimp only
    rw [hacc1ik]
    dsimp only [Option.getD]
    have hins : dinsert rootd ek (reconstructValue ev)
        = rootd ++ [(ek, reconstructValue ev)] :=
      dinsert_eq_append_of_not_mem rootd ek _ (hfresh ek (by simp))
    have hrs : rootSet (dupdate acc (get_inner_attributes (k ++ "." ++ ek) ev)) k
        (fun rv => match rv with
          | Value.vdict d => Value.vdict (dinsert d ek (reconstructValue ev))
          | rv => rv)
        = dinsert (dupdate acc (get_inner_attributes (k ++ "." ++ ek) ev)) k
            (.vdict (rootd ++ [(ek, reconstructValue ev)])) := by
      unfold rootSet
      rw [hacc1k]
      dsimp only
      rw [hins]
    rw [hrs]
    have hacc2k : dget (dinsert (dupdate acc
        (get_inner_attributes (k ++ "." ++ ek) ev)) k
          (.vdict (rootd ++ [(ek, reconstructValue ev)]))) k
        = some (.vdict (rootd ++ [(ek, reconstructValue ev)])) := by
      rw [dget_dinsert, if_pos rfl]
    simp only [List.map_cons, List.nodup_cons] at hnd
    obtain ⟨out, hloop, hout⟩ := ih _ (rootd ++ [(ek, reconstructValue ev)]) hacc2k
      hnd.2
      (by
        intro ek2 hek2
        simp only [List.map_append, List.mem_append, List.map_cons, List.map_nil,
          List.mem_singleton]
        push_neg
        constructor
        · exact hfresh ek2 (by simp [hek2])
        · intro hcon
          rw [hcon] at hek2
          exact hnd.1 hek2)
      (fun z hz => hsz z (by simp [hz]))
      (fun z hz key => hroot z (by simp [hz]) key)
    refine ⟨out, hloop, ?_⟩
    rw [hout]
    simp

theorem gia_root : ∀ (n : Nat) (k : String) (v : Value), vsize v ≤ n → WFValue v →
    dget (get_inner_attributes k v) k = some (reconstructValue v) := by
  intro n
  induction n with
  | zero =>
    intro k v h _
    have := vsize_pos v
    omega
  | succ n ih =>
    intro k v hsz hwf
    have hwf' := WFValue_unwrap hwf
    have hwrap : get_inner_attributes k v = (giaF (vsize v + 1) k v).getD [] := rfl
    rw [hwrap, giaF_succ]
    cases hav : unwrapSingleton v with
    | prim p =>
      dsimp only
      rw [reconstructValue_unfold, hav]
      simp [dget]
    | vlist l =>
      dsimp only
      rw [hav] at hwf'
      have hchildwf : ∀ x ∈ l, WFValue x := by
        cases hwf' with
        | vlist l h => exact h
      obtain ⟨out, hloop, hout⟩ := giaListLoop_root (vsize v) k l 0
        [(k, .vlist (List.replicate l.length (.prim .pnull)))]
        (List.replicate l.length (.prim .pnull))
        (by simp [dget])
        (by simp)
        (fun x hx => vsize_lt_of_unwrap_child_list hav hx)
        (fun x hx key => by
          have hlt : vsize x < vsize v := vsize_lt_of_unwrap_child_list hav hx
          exact ih key x (by omega) (hchildwf x hx))
      rw [hloop]
      simp only [Option.getD]
      rw [hout, reconstructValue_unfold, hav]
      simp
    | vdict d =>
      dsimp only
      rw [hav] at hwf'
      have hchildwf : ∀ kv ∈ d, WFValue kv.2 := by
        cases hwf' with
        | vdict d hnd h => exact h
      have hnd : (d.map (·.1)).Nodup := by
        cases hwf' with
        | vdict d hnd h => exact hnd
      obtain ⟨out, hloop, hout⟩ := giaDictLoop_root (vsize v) k d
        [(k, .vdict [])] []
        (by simp [dget])
        hnd
        (by simp)
        (fun kv hkv => vsize_lt_of_unwrap_child_dict hav hkv)
        (fun kv hkv key => by
          have hlt : vsize kv.2 < vsize v := vsize_lt_of_unwrap_child_dict hav hkv
          exact ih key kv.2 (by omega) (hchildwf kv hkv))
      rw [hloop]
      simp only [Option.getD]
      rw [hout, reconstructValue_unfold, hav]
      simp

theorem giaListLoop_map_congr (rec : String → Value → Option PyDict)
    (g : Value → Value) (k : String) :
    ∀ (elems : List Value) (i : Nat) (acc : PyDict),
      (∀ x ∈ elems, ∀ key, rec key (g x) = rec key x) →
      giaListLoop rec k i (elems.map g) acc = giaListLoop rec k i elems acc := by
  intro elems
  induction elems with
  | nil => intro i acc h; rfl
  | cons x rest ih =>
    intro i acc h
    simp only [List.map_cons, giaListLoop, h x (by simp)]
    cases rec (k ++ "." ++ toString i) x with
    | none => rfl
    | some child => exact ih (i + 1) _ (fun z hz key => h z (by simp [hz]) key)

theorem giaDictLoop_map_congr (rec : String → Value → Option PyDict)
    (g : Value → Value) (k : String) :
    ∀ (entries : List (String × Value)) (acc : PyDict),
      (∀ kv ∈ entries, ∀ key, rec key (g kv.2) = rec key kv.2) →
      giaDictLoop rec k (entries.map (fun kv => (kv.1, g kv.2))) acc
        = giaDictLoop rec k entries acc := by
  intro entries
  induction entries with
  | nil => intro acc h; rfl
  | cons kv rest ih =>
    obtain ⟨ek, ev⟩ := kv
    intro acc h
    have hx : rec (k ++ "." ++ ek) (g ev) = rec (k ++ "." ++ ek) ev := by
      simpa using h (ek, ev) (by simp) (k ++ "." ++ ek)
    simp only [List.map_cons, giaDictLoop, hx]
    cases rec (k ++ "." ++ ek) ev with
    | none => rfl
    | some child => exact ih _ (fun z hz key => h z (by simp [hz]) key)

theorem giaF_recon : ∀ (f : Nat) (k : String) (v : Value), vsize v < f →
    NoNestedSingleton v → giaF f k (reconstructValue v) = giaF f k v := by
  intro f
  induction f with
  | zero => intro k v h _; omega
  | succ f ih =>
    intro k v hsz hnns
    rw [giaF_succ, giaF_succ]
    cases hav : unwrapSingleton v with
    | prim p =>
      rw [reconstructValue_unfold, hav]
      rfl
    | vlist l =>
      have hlen : l.length ≠ 1 := nns_unwrap_list_len hnns hav
      have hchildnns : ∀ x ∈ l, NoNestedSingleton x := by
        have h1 := NoNestedSingleton_unwrap hnns
        rw [hav] at h1
        cases h1 with
        | vlist l h1 h2 => exact h1
      rw [reconstructValue_unfold, hav]
      dsimp only
      rw [show unwrapSingleton (.vlist (l.map reconstructValue))
          = .vlist (l.map reconstructValue) from
        unwrapSingleton_of_len_ne_one (by simpa using hlen)]
      dsimp only
      rw [List.length_map]
      exact giaListLoop_map_congr (giaF f) reconstructValue k l 0 _
        (fun x hx key => by
          have hlt : vsize x < vsize v := vsize_lt_of_unwrap_child_list hav hx
          exact ih key x (by omega) (hchildnns x hx))
    | vdict d =>
      have hchildnns : ∀ kv ∈ d, NoNestedSingleton kv.2 := by
        have h1 := NoNestedSingleton_unwrap hnns
        rw [hav] at h1
        cases h1 with
        | vdict d h1 => exact h1
      rw [reconstructValue_unfold, hav]
      dsimp only
      rw [show unwrapSingleton (.vdict (d.map (fun kv => (kv.1, reconstructValue kv.2))))
          = .vdict (d.map (fun kv => (kv.1, reconstructValue kv.2))) from rfl]
      dsimp only
      exact giaDictLoop_map_congr (giaF f) reconstructValue k d _
        (fun kv hkv key => by
          have hlt : vsize kv.2 < vsize v := vsize_lt_of_unwrap_child_dict hav hkv
          exact ih key kv.2 (by omega) (hchildnns kv hkv))

/-- C4 (amended): flattening a nested value under a root key stores, at the
root key of the flattened mapping, the value rebuilt with exactly *one*
singleton-sequence unwrap at the entry of each recursive visit (so a
singleton whose sole element is itself a singleton loses only its outer
wrapper at that visit, not both); and re-applying the transform to that
rebuilt form yields the same flattened mapping whenever no singleton
sequence in the value directly contains a singleton sequence.  Mappings are
assumed well-formed (distinct keys), as every Python dict is. -/
theorem C4_flatten_roundtrip_amended :
    (∀ (k : String) (v : Value), WFValue v →
      dget (get_inner_attributes k v) k = some (reconstructValue v))
    ∧ (∀ (k : String) (v : Value), NoNestedSingleton v →
      get_inner_attributes k (reconstructValue v) = get_inner_attributes k v) := by
  constructor
  · intro k v hwf
    exact gia_root (vsize v) k v le_rfl hwf
  · intro k v hnns
    have hle : vsize (reconstructValue v) ≤ vsize v := vsize_recon_le (vsize v) v le_rfl
    have h1 : get_inner_attributes k (reconstructValue v)
        = (giaF (vsize (reconstructValue v) + 1) k (reconstructValue v)).getD [] := rfl
    rw [h1, giaF_irrel (vsize (reconstructValue v) + 1) (vsize v + 1) k
      (reconstructValue v) (by omega) (by omega),
      giaF_recon (vsize v + 1) k v (by omega) hnns]
    rfl

/-- A depth-four nested value exercising lists, dicts and primitives. -/
def c4SampleValue : Value :=
  .vdict [("a", .vlist [.vdict [("b", .vlist [.prim (.pint 1), .prim (.pint 2)])],
    .prim (.pint 3)]), ("c", .prim (.pint 4))]

theorem c4SampleValue_wf : WFValue c4SampleValue := by
  refine .vdict _ (by decide) ?_
  intro kv hkv
  simp only [c4SampleValue, List.mem_cons, List.not_mem_nil, or_false] at hkv
  rcases hkv with h | h <;> subst h
  · refine .vlist _ ?_
    intro x hx
    simp only [List.mem_cons, List.not_mem_nil, or_false] at hx
    rcases hx with h | h <;> subst h
    · refine .vdict _ (by decide) ?_
      intro kv2 hkv2
      simp only [List.mem_cons, List.not_mem_nil, or_false] at hkv2
      subst hkv2
      refine .vlist _ ?_
      intro y hy
      simp only [List.mem_cons, List.not_mem_nil, or_false] at hy
      rcases hy with h | h <;> subst h <;> exact .prim _
    · exact .prim _
  · exact .prim _

theorem c4SampleValue_nns : NoNestedSingleton c4SampleValue := by
  refine .vdict _ ?_
  intro kv hkv
  simp only [c4SampleValue, List.mem_cons, List.not_mem_nil, or_false] at hkv
  rcases hkv with h | h <;> subst h
  · refine .vlist _ ?_ (by intro x y hxy; simp at hxy)
    intro x hx
    simp only [List.mem_cons, List.not_mem_nil, or_false] at hx
    rcases hx with h | h <;> subst h
    · refine .vdict _ ?_
      intro kv2 hkv2
      simp only [List.mem_cons, List.not_mem_nil, or_false] at hkv2
      subst hkv2
      refine .vlist _ ?_ (by intro x y hxy; simp at hxy)
      intro y hy
      simp only [List.mem_cons, List.not_mem_nil, or_false] at hy
      rcases hy with h | h <;> subst h <;> exact .prim _
    · exact .prim _
  · exact .prim _

/-- Closed witness for C4's amended statement at a depth-four input. -/
theorem C4_witness :
    dget (get_inner_attributes "root" c4SampleValue) "root"
      = some (reconstructValue c4SampleValue)
    ∧ get_inner_attributes "root" (reconstructValue c4SampleValue)
      = get_inner_attributes "root" c4SampleValue :=
  ⟨C4_flatten_roundtrip_amended.1 "root" c4SampleValue c4SampleValue_wf,
   C4_flatten_roundtrip_amended.2 "root" c4SampleValue c4SampleValue_nns⟩

/-! ### Fuel toolkit for `update_inner_attribute` -/

theorem splitChars_length_ge_two (cs : List Char)
    (h : 2 ≤ (splitChars cs).length) : '.' ∈ cs := by
  induction cs with
  | nil => simp [splitChars] at h
  | cons c rest ih =>
    by_cases hc : c = '.'
    · simp [hc]
    · simp only [splitChars, hc, if_false] at h
      cases hs : splitChars rest with
      | nil => exact absurd hs (splitChars_ne_nil rest)
      | cons u us =>
        rw [hs] at h
        simp only [List.length_cons] at h
        have h2 : 2 ≤ (splitChars rest).length := by
          rw [hs]
          simp
          omega
        simp [ih h2]

theorem splitDot_mem_no_dot {s : String} {t : String} (ht : t ∈ splitDot s) :
    '.' ∉ t.data := by
  simp only [splitDot, List.mem_map] at ht
  obtain ⟨chunk, hchunk, rfl⟩ := ht
  exact splitChars_no_dot s.data chunk hchunk

theorem splitDot_head_mem (s : String) : (splitDot s).headD "" ∈ splitDot s := by
  cases hs : splitDot s with
  | nil => exact absurd hs (splitDot_ne_nil s)
  | cons t ts => simp

theorem head_ne_of_multi {s : String} (h : (splitDot s).length ≠ 1) :
    (splitDot s).headD "" ≠ s := by
  have hlen : 2 ≤ (splitDot s).length := by
    cases hl : (splitDot s).length with
    | zero =>
      exact absurd (List.length_eq_zero.mp hl) (splitDot_ne_nil s)
    | succ n =>
      cases n with
      | zero => exact absurd hl h
      | succ m => omega
  have hdot : '.' ∈ s.data := by
    apply splitChars_length_ge_two
    simpa [splitDot] using hlen
  have hnd : '.' ∉ ((splitDot s).headD "").data :=
    splitDot_mem_no_dot (splitDot_head_mem s)
  intro hcon
  rw [hcon] at hnd
  exact hnd hdot

theorem uiaBroadcast_isSome (rec : String → Value → Value → Option (Value × Bool))
    (curr : String) (v : Value) (l : List Value)
    (h : ∀ x ∈ l, (rec curr x v).isSome) :
    (uiaBroadcast rec curr v l).isSome := by
  induction l with
  | nil => simp [uiaBroadcast]
  | cons x rest ih =>
    simp only [uiaBroadcast]
    cases hc : rec curr x v with
    | none =>
      have := h x (by simp)
      rw [hc] at this
      simp at this
    | some xr =>
      obtain ⟨x', raised⟩ := xr
      by_cases hr : raised
      · simp [hr]
      · simp only [hr, if_false, Bool.false_eq_true]
        have := ih (fun z hz => h z (by simp [hz]))
        cases hrest : uiaBroadcast rec curr v rest with
        | none => rw [hrest] at this; simp at this
        | some rr =>
          obtain ⟨rest', r2⟩ := rr
          simp

theorem uiaBroadcast_congr (r1 r2 : String → Value → Value → Option (Value × Bool))
    (curr : String) (v : Value) (l : List Value)
    (h : ∀ x ∈ l, r1 curr x v = r2 curr x v) :
    uiaBroadcast r1 curr v l = uiaBroadcast r2 curr v l := by
  induction l with
  | nil => rfl
  | cons x rest ih =>
    simp only [uiaBroadcast, h x (by simp)]
    cases r2 curr x v with
    | none => rfl
    | some xr =>
      obtain ⟨x', raised⟩ := xr
      rw [ih (fun z hz => h z (by simp [hz]))]


/-- The list branch returns a value whenever every recursive call it can make
does. -/
theorem uiaListBody_isSome (rec : String → Value → Value → Option (Value × Bool))
    (ak : String) (l : List Value) (v : Value)
    (h : ∀ (key : String), ∀ x ∈ l, (rec key x v).isSome) :
    (uiaListBody rec ak l v).isSome := by
  unfold uiaListBody
  dsimp only
  split
  · have hb := uiaBroadcast_isSome rec ((splitDot ak).headD "") v l
      (fun x hx => h _ x hx)
    cases hc : uiaBroadcast rec ((splitDot ak).headD "") v l with
    | none => rw [hc] at hb; simp at hb
    | some lr =>
      obtain ⟨l', raised⟩ := lr
      simp
  · split
    · split <;> simp
    · split
      · rename_i hlt
        have hx := h (joinDot (splitDot ak).tail)
          (l.get ⟨pyToNat ((splitDot ak).headD ""), hlt⟩) (List.get_mem l _ _)
        cases hc : rec (joinDot (splitDot ak).tail)
            (l.get ⟨pyToNat ((splitDot ak).headD ""), hlt⟩) v with
        | none => rw [hc] at hx; simp at hx
        | some cr =>
          obtain ⟨c', raised⟩ := cr
          simp
      · simp

/-- The dict branch returns a value whenever the one recursive call it can
make (on a multi-component key, at the stored child of the head component)
does. -/
theorem uiaDictBody_isSome (rec : String → Value → Value → Option (Value × Bool))
    (ak : String) (d : PyDict) (v : Value)
    (h : (splitDot ak).length ≠ 1 → ∀ (key : String) (c : Value),
      dget d ((splitDot ak).headD "") = some c → (rec key c v).isSome) :
    (uiaDictBody rec ak d v).isSome := by
  unfold uiaDictBody
  dsimp only
  split
  · split <;> simp
  · rename_i hlen
    by_cases hci : pyIsNumeric ((splitDot ak).headD "") = true
    · rw [if_pos hci]
      dsimp only
      split <;> simp
    · rw [if_neg hci]
      cases hg : dget d ((splitDot ak).headD "") with
      | none =>
        dsimp only
        split <;> simp
      | some c =>
        dsimp only
        have hx := h hlen (joinDot (splitDot ak).tail) c hg
        cases hr : rec (joinDot (splitDot ak).tail) c v with
        | none => rw [hr] at hx; simp at hx
        | some cr =>
          obtain ⟨c', raised⟩ := cr
          dsimp only
          split
          · split <;> simp
          · simp

/-- Adequacy: with fuel above the value's size, `uiaF` returns a result. -/
theorem uiaF_isSome : ∀ (f : Nat) (attribute_key : String) (nested v : Value),
    vsize nested < f → (uiaF f attribute_key nested v).isSome := by
  intro f
  induction f with
  | zero => intro ak nested v h; exact absurd h (by omega)
  | succ f ih =>
    intro ak nested v hsz
    cases nested with
    | prim p => rw [uiaF_prim]; simp
    | vlist l =>
      rw [uiaF_list]
      refine uiaListBody_isSome _ _ _ _ (fun key x hx => ih key x v ?_)
      have := vsize_lt_vlist hx
      omega
    | vdict d =>
      rw [uiaF_dict]
      by_cases ht : truthyOpt (dget d ak) = true
      · rw [if_pos ht]
        refine uiaDictBody_isSome _ _ _ _ (fun hlen key c hc => ih key c v ?_)
        have hne : (splitDot ak).headD "" ≠ ak := head_ne_of_multi hlen
        rw [dget_dinsert, if_neg (fun hh => hne hh.symm)] at hc
        have := vsize_lt_vdict (dget_mem hc)
        omega
      · rw [if_neg ht]
        refine uiaDictBody_isSome _ _ _ _ (fun hlen key c hc => ih key c v ?_)
        have := vsize_lt_vdict (dget_mem hc)
        omega

theorem uiaListBody_congr (r1 r2 : String → Value → Value → Option (Value × Bool))
    (ak : String) (l : List Value) (v : Value)
    (h : ∀ (key : String), ∀ x ∈ l, r1 key x v = r2 key x v) :
    uiaListBody r1 ak l v = uiaListBody r2 ak l v := by
  unfold uiaListBody
  dsimp only
  split
  · rw [uiaBroadcast_congr r1 r2 _ _ _ (fun x hx => h _ x hx)]
  · split
    · rfl
    · split
      · rename_i hlt
        rw [h (joinDot (splitDot ak).tail)
          (l.get ⟨pyToNat ((splitDot ak).headD ""), hlt⟩) (List.get_mem l _ _)]
      · rfl

theorem uiaDictBody_congr (r1 r2 : String → Value → Value → Option (Value × Bool))
    (ak : String) (d : PyDict) (v : Value)
    (h : (splitDot ak).length ≠ 1 → ∀ (key : String) (c : Value),
      dget d ((splitDot ak).headD "") = some c → r1 key c v = r2 key c v) :
    uiaDictBody r1 ak d v = uiaDictBody r2 ak d v := by
  unfold uiaDictBody
  dsimp only
  split
  · rfl
  · rename_i hlen
    by_cases hci : pyIsNumeric ((splitDot ak).headD "") = true
    · rw [if_pos hci]
    · rw [if_neg hci]
      cases hg : dget d ((splitDot ak).headD "") with
      | none => rfl
      | some c =>
        dsimp only
        rw [h hlen (joinDot (splitDot ak).tail) c hg]

/-- Fuel irrelevance: any two adequate fuels agree. -/
theorem uiaF_irrel : ∀ (f1 f2 : Nat) (attribute_key : String) (nested v : Value),
    vsize nested < f1 → vsize nested < f2 →
    uiaF f1 attribute_key nested v = uiaF f2 attribute_key nested v := by
  intro f1
  induction f1 with
  | zero => intro f2 ak nested v h1 h2; exact absurd h1 (by omega)
  | succ f1 ih =>
    intro f2 ak nested v h1 h2
    cases f2 with
    | zero => exact absurd h2 (by omega)
    | succ f2 =>
      cases nested with
      | prim p => rw [uiaF_prim, uiaF_prim]
      | vlist l =>
        rw [uiaF_list, uiaF_list]
        refine uiaListBody_congr _ _ _ _ _ (fun key x hx => ih f2 key x v ?_ ?_) <;>
          · have := vsize_lt_vlist hx
            omega
      | vdict d =>
        rw [uiaF_dict, uiaF_dict]
        by_cases ht : truthyOpt (dget d ak) = true
        · rw [if_pos ht]
          refine uiaDictBody_congr _ _ _ _ _ (fun hlen key c hc => ih f2 key c v ?_ ?_) <;>
            · have hne : (splitDot ak).headD "" ≠ ak := head_ne_of_multi hlen
              rw [dget_dinsert, if_neg (fun hh => hne hh.symm)] at hc
              have := vsize_lt_vdict (dget_mem hc)
              omega
        · rw [if_neg ht]
          refine uiaDictBody_congr _ _ _ _ _ (fun hlen key c hc => ih f2 key c v ?_ ?_) <;>
            · have := vsize_lt_vdict (dget_mem hc)
              omega

/-- Any adequate fuel computes `update_inner_attribute`. -/
theorem uiaF_eq (f : Nat) (attribute_key : String) (nested v : Value)
    (h : vsize nested < f) :
    uiaF f attribute_key nested v
      = some (update_inner_attribute attribute_key nested v) := by
  have h0 := uiaF_isSome (vsize nested + 1) attribute_key nested v (by omega)
  unfold update_inner_attribute
  rw [uiaF_irrel f (vsize nested + 1) attribute_key nested v h (by omega)]
  cases hc : uiaF (vsize nested + 1) attribute_key nested v with
  | none => rw [hc] at h0; simp at h0
  | some r => simp

/-- When no element's update raises, the broadcast loop maps the update over
the whole list and does not raise. -/
theorem uiaBroadcast_eq_map (rec : String → Value → Value → Option (Value × Bool))
    (curr : String) (v : Value) (g : Value → Value) (l : List Value)
    (h : ∀ x ∈ l, rec curr x v = some (g x, false)) :
    uiaBroadcast rec curr v l = some (l.map g, false) := by
  induction l with
  | nil => rfl
  | cons x rest ih =>
    simp only [uiaBroadcast, h x (by simp), ih (fun z hz => h z (by simp [hz]))]
    rfl

/-- Broadcast semantics of `update_inner_attribute` on a sequence: when the
head path component is non-numeric and no element's update raises, every
element of the sequence is rewritten with that single component. -/
theorem update_inner_attribute_broadcast (key : String) (l : List Value) (v : Value)
    (hci : pyIsNumeric ((splitDot key).headD "") = false)
    (h : ∀ x ∈ l, (update_inner_attribute ((splitDot key).headD "") x v).2 = false) :
    update_inner_attribute key (.vlist l) v
      = (.vlist (l.map (fun x =>
          (update_inner_attribute ((splitDot key).headD "") x v).1)), false) := by
  show (uiaF (vsize (Value.vlist l) + 1) key (Value.vlist l) v).getD
      (Value.vlist l, true) = _
  rw [uiaF_list]
  unfold uiaListBody
  dsimp only
  rw [if_pos (by rw [hci]; decide)]
  rw [uiaBroadcast_eq_map (uiaF (vsize (Value.vlist l)))
    ((splitDot key).headD "") v
    (fun x => (update_inner_attribute ((splitDot key).headD "") x v).1) l
    (fun x hx => by
      rw [uiaF_eq _ _ _ _ (by have := vsize_lt_vlist hx; omega)]
      have h2 := h x hx
      cases hu : update_inner_attribute ((splitDot key).headD "") x v with
      | mk a b =>
        rw [hu] at h2
        simp only at h2
        simp only [hu, h2])]
  rfl

/-- C5: on a vertex whose `ingress` attribute is the sequence
`[{port: 80}, {port: 443}]`, `update_attribute("ingress.port", 8080, 3, [])`
sets `port` to `8080` on *both* sequence elements of the nested tree and
records `"ingress.port"` in `changed_attributes`; and in general, when
`update_inner_attribute` meets a sequence and the next path component is
non-numeric, the rewrite is broadcast to every element of the sequence
(stated when no element's rewrite raises, so the loop completes). -/
theorem C5_broadcast_update :
    (dget (update_attribute (mk_block "aws_security_group.sg" (.prim .pnull) ""
          .resource
          [("ingress", .vlist [.vdict [("port", .prim (.pint 80))],
            .vdict [("port", .prim (.pint 443))]])] "" "" false)
        "ingress.port" (.prim (.pint 8080)) 3 []).attributes "ingress"
      = some (.vlist [.vdict [("port", .prim (.pint 8080))],
          .vdict [("port", .prim (.pint 8080))]])
    ∧ (update_attribute (mk_block "aws_security_group.sg" (.prim .pnull) ""
          .resource
          [("ingress", .vlist [.vdict [("port", .prim (.pint 80))],
            .vdict [("port", .prim (.pint 443))]])] "" "" false)
        "ingress.port" (.prim (.pint 8080)) 3 []).changed_attributes
      = [("ingress.port", [3])])
    ∧ ∀ (key : String) (l : List Value) (v : Value),
        pyIsNumeric ((splitDot key).headD "") = false →
        (∀ x ∈ l, (update_inner_attribute ((splitDot key).headD "") x v).2 = false) →
        update_inner_attribute key (.vlist l) v
          = (.vlist (l.map (fun x =>
              (update_inner_attribute ((splitDot key).headD "") x v).1)), false) :=
  ⟨⟨by decide, by decide⟩, update_inner_attribute_broadcast⟩

/-- Witness for C5's general broadcast statement at a concrete sequence. -/
theorem C5_witness :
    update_inner_attribute "port"
        (.vlist [.vdict [("port", .prim (.pint 80))],
          .vdict [("port", .prim (.pint 443))]]) (.prim (.pint 8080))
      = (.vlist [.vdict [("port", .prim (.pint 8080))],
          .vdict [("port", .prim (.pint 8080))]], false) := by
  have h := C5_broadcast_update.2 "port"
    [.vdict [("port", .prim (.pint 80))], .vdict [("port", .prim (.pint 443))]]
    (.prim (.pint 8080)) (by decide) (by decide)
  rw [h]
  decide

/-! ### C1: string and dict groundwork -/

theorem joinDot_data_splitChars : ∀ cs : List Char,
    (joinDot ((splitChars cs).map String.mk)).data = cs := by
  intro cs
  induction cs with
  | nil => rfl
  | cons c rest ih =>
    by_cases hc : c = '.'
    · subst hc
      simp only [splitChars, if_pos rfl, List.map_cons]
      cases hs : splitChars rest with
      | nil => exact absurd hs (splitChars_ne_nil rest)
      | cons t ts =>
        rw [hs] at ih
        simp only [List.map_cons] at ih
        show (String.mk [] ++ "." ++ joinDot (String.mk t :: ts.map String.mk)).data
          = '.' :: rest
        rw [String.data_append, String.data_append]
        simpa using ih
    · simp only [splitChars, if_neg hc]
      cases hs : splitChars rest with
      | nil => exact absurd hs (splitChars_ne_nil rest)
      | cons t ts =>
        rw [hs] at ih
        simp only [List.map_cons] at ih
        cases ts with
        | nil =>
          show (String.mk (c :: t)).data = c :: rest
          simp only [List.map_nil] at ih
          show c :: t = c :: rest
          have ht : t = rest := ih
          rw [ht]
        | cons u us =>
          show (String.mk (c :: t) ++ "." ++ joinDot
            (String.mk u :: us.map String.mk)).data = c :: rest
          rw [String.data_append, String.data_append]
          have ih2 : (String.mk t ++ "." ++ joinDot
              (String.mk u :: us.map String.mk)).data = rest := ih
          rw [String.data_append, String.data_append] at ih2
          simpa using ih2

theorem joinDot_splitDot (s : String) : joinDot (splitDot s) = s :=
  congrArg String.mk (joinDot_data_splitChars s.data)

theorem splitDot_single (k : String) (hdot : '.' ∉ k.data) : splitDot k = [k] :=
  splitDot_joinDot [k] (by simp) (by simpa using hdot)

theorem containsDot_joinDot_two (a b : String) (l : List String) :
    containsDot (joinDot (a :: b :: l)) = true := by
  show ((a ++ "." ++ joinDot (b :: l)).data.contains '.') = true
  rw [String.data_append, String.data_append]
  show (a.data ++ ['.'] ++ (joinDot (b :: l)).data).contains '.' = true
  simp

theorem containsDot_eq_false_of (s : String) (h : '.' ∉ s.data) :
    containsDot s = false := by
  simpa [containsDot] using h

theorem dinsert_dinsert_same {α : Type} (d : List (String × α)) (k : String)
    (v w : α) : dinsert (dinsert d k v) k w = dinsert d k w := by
  induction d with
  | nil => simp [dinsert]
  | cons hd tl ih =>
    obtain ⟨k', v'⟩ := hd
    by_cases h : k' = k
    · simp [dinsert, h]
    · simp [dinsert, h, ih]

theorem UpdOk_dotfree {v : Value} {parts : List String} {n r : Value}
    (h : UpdOk v parts n r) : ∀ s ∈ parts, '.' ∉ s.data := by
  induction h with
  | last k d hnum hdot =>
    intro s hs
    rw [List.mem_singleton] at hs
    subst hs
    exact hdot
  | step k rest d c c' hnum hdot hrest hget hflat hrec ih =>
    intro s hs
    rw [List.mem_cons] at hs
    rcases hs with hs | hs
    · subst hs
      exact hdot
    · exact ih s hs

theorem UpdOk_readPath {v : Value} {parts : List String} {n r : Value}
    (h : UpdOk v parts n r) : readPath parts r = some v := by
  induction h with
  | last k d hnum hdot =>
    simp only [readPath]
    rw [dget_dinsert, if_pos rfl]
  | step k rest d c c' hnum hdot hrest hget hflat hrec ih =>
    simp only [readPath]
    rw [dget_dinsert, if_pos rfl]
    exact ih

/-- A clean descent is exactly what `update_inner_attribute` computes: the
rewritten tree, with no exception escaping. -/
theorem uia_cleanpath {v : Value} {parts : List String} {nested result : Value}
    (h : UpdOk v parts nested result) :
    ∀ (key : String), splitDot key = parts →
      update_inner_attribute key nested v = (result, false) := by
  induction h with
  | last k d hnum hdot =>
    intro key hkey
    have hk : k = key := by
      have h2 := joinDot_splitDot key
      rw [hkey] at h2
      exact h2
    subst hk
    show (uiaF (vsize (Value.vdict d) + 1) k (Value.vdict d) v).getD
      (Value.vdict d, true) = (Value.vdict (dinsert d k v), false)
    rw [uiaF_dict]
    unfold uiaDictBody
    dsimp only
    rw [hkey]
    rw [if_pos (by simp)]
    simp only [List.headD_cons]
    rw [if_neg (by rw [hnum]; exact Bool.false_ne_true)]
    by_cases ht : truthyOpt (dget d k) = true
    · rw [if_pos ht]
      simp only [Option.getD_some]
      rw [dinsert_dinsert_same]
    · rw [if_neg ht]
      simp only [Option.getD_some]
  | step k rest d c c' hnum hdot hrest hget hflat hrec ih =>
    intro key hkey
    have hkeyeq : joinDot (k :: rest) = key := by
      have h2 := joinDot_splitDot key
      rw [hkey] at h2
      exact h2
    show (uiaF (vsize (Value.vdict d) + 1) key (Value.vdict d) v).getD
      (Value.vdict d, true) = (Value.vdict (dinsert d k c'), false)
    rw [uiaF_dict]
    rw [hkeyeq] at hflat
    rw [hflat]
    rw [if_neg Bool.false_ne_true]
    unfold uiaDictBody
    dsimp only
    rw [hkey]
    rw [if_neg (fun hh : (k :: rest).length = 1 =>
      hrest (List.length_eq_zero.mp (by simpa using hh)))]
    simp only [List.headD_cons, List.tail_cons]
    rw [hnum]
    rw [if_neg Bool.false_ne_true]
    rw [hget]
    dsimp only
    have hchild : uiaF (vsize (Value.vdict d)) (joinDot rest) c v
        = some (c', false) := by
      rw [uiaF_eq _ _ _ _ (by
        have := vsize_lt_vdict (dget_mem hget)
        omega)]
      rw [ih (joinDot rest) (splitDot_joinDot rest hrest (UpdOk_dotfree hrec))]
    rw [hchild]
    dsimp only
    rw [if_neg Bool.false_ne_true]
    simp only [Option.getD_some]

theorem containsDot_joinDot_of_two (l : List String) (h2 : 2 ≤ l.length) :
    containsDot (joinDot l) = true := by
  cases l with
  | nil => simp at h2
  | cons a tl =>
    cases tl with
    | nil => simp at h2
    | cons b l2 => exact containsDot_joinDot_two a b l2

/-- Distinct trim counts give distinct ancestor keys. -/
theorem take_key_inj (parts : List String)
    (hnd : ∀ s ∈ parts, '.' ∉ s.data) {a b : Nat}
    (ha : a < parts.length) (hb : b < parts.length) (hab : a ≠ b) :
    joinDot (parts.take (parts.length - a))
      ≠ joinDot (parts.take (parts.length - b)) := by
  intro heq
  have hne : ∀ c : Nat, c < parts.length → parts.take (parts.length - c) ≠ [] := by
    intro c hc hnil
    have := congrArg List.length hnil
    rw [List.length_take] at this
    simp at this
    omega
  have hta := splitDot_joinDot (parts.take (parts.length - a)) (hne a ha)
    (fun s hs => hnd s (List.take_subset _ _ hs))
  have htb := splitDot_joinDot (parts.take (parts.length - b)) (hne b hb)
    (fun s hs => hnd s (List.take_subset _ _ hs))
  have htake : parts.take (parts.length - a) = parts.take (parts.length - b) := by
    rw [← hta, ← htb, heq]
  have hlen := congrArg List.length htake
  rw [List.length_take, List.length_take] at hlen
  omega

/-- Keys the sync loop never writes keep their prior flat and
`changed_attributes` entries. -/
theorem ual_untouched (parts : List String) (bc : List Nat) :
    ∀ (is : List Nat) (w : Value) (attrs : PyDict)
      (changed : List (String × List Nat)) (k : String),
    (∀ i ∈ is, containsDot (join_trimmed_strings parts i) = true →
      join_trimmed_strings parts i ≠ k) →
    dget (update_attribute_loop parts bc is w attrs changed).1 k = dget attrs k
    ∧ dget (update_attribute_loop parts bc is w attrs changed).2 k
        = dget changed k := by
  intro is
  induction is with
  | nil =>
    intro w attrs changed k h
    exact ⟨rfl, rfl⟩
  | cons i rest ih =>
    intro w attrs changed k h
    simp only [update_attribute_loop]
    by_cases hd : containsDot (join_trimmed_strings parts i) = true
    · rw [if_pos hd]
      have hne := h i (by simp) hd
      obtain ⟨h1, h2⟩ := ih _ _ _ k (fun j hj hdj => h j (by simp [hj]) hdj)
      refine ⟨?_, ?_⟩
      · rw [h1, dget_dinsert, if_neg hne]
      · rw [h2, dget_dinsert, if_neg hne]
    · rw [if_neg hd]
      exact ih _ _ _ k (fun j hj hdj => h j (by simp [hj]) hdj)

/-- What the sync loop writes: running from index `i` with the `i`-times
wrapped value, every iteration `j ≥ i` whose ancestor key keeps at least two
components ends with the flat dict holding the `j`-times wrapped value at
that key, and the breadcrumbs recorded there. -/
theorem ual_run (parts : List String) (bc : List Nat) (v : Value)
    (hnd : ∀ s ∈ parts, '.' ∉ s.data) :
    ∀ (n i : Nat), i + n = parts.length →
    ∀ (attrs : PyDict) (changed : List (String × List Nat)) (j : Nat),
      i ≤ j → j + 2 ≤ parts.length →
      dget (update_attribute_loop parts bc (List.range' i n)
          (wrapChain parts v i) attrs changed).1
          (joinDot (parts.take (parts.length - j)))
        = some (wrapChain parts v j)
      ∧ dget (update_attribute_loop parts bc (List.range' i n)
          (wrapChain parts v i) attrs changed).2
          (joinDot (parts.take (parts.length - j)))
        = some bc := by
  intro n
  induction n with
  | zero =>
    intro i hi attrs changed j hij hj2
    exact absurd hj2 (by omega)
  | succ n ihn =>
    intro i hi attrs changed j hij hj2
    rw [List.range'_succ i n 1]
    simp only [update_attribute_loop, join_trimmed_strings]
    by_cases hi2 : i + 2 ≤ parts.length
    · have hkdot : containsDot (joinDot (parts.take (parts.length - i))) = true := by
        apply containsDot_joinDot_of_two
        rw [List.length_take]
        omega
      rw [if_pos hkdot]
      have hwrap : (Value.vdict [(parts.getD (parts.length - 1 - i) "",
          wrapChain parts v i)]) = wrapChain parts v (i + 1) := rfl
      rw [hwrap]
      by_cases hji : j = i
      · subst hji
        have hcond : ∀ i' ∈ List.range' (j+1) n,
            containsDot (join_trimmed_strings parts i') = true →
            join_trimmed_strings parts i'
              ≠ joinDot (parts.take (parts.length - j)) := by
          intro i' hi' _
          rw [List.mem_range'] at hi'
          simp only [join_trimmed_strings]
          exact take_key_inj parts hnd (by omega) (by omega) (by omega)
        obtain ⟨h1, h2⟩ := ual_untouched parts bc (List.range' (j+1) n)
          (wrapChain parts v (j+1))
          (dinsert attrs (joinDot (parts.take (parts.length - j)))
            (wrapChain parts v j))
          (dinsert changed (joinDot (parts.take (parts.length - j))) bc)
          (joinDot (parts.take (parts.length - j))) hcond
        refine ⟨?_, ?_⟩
        · rw [h1, dget_dinsert, if_pos rfl]
        · rw [h2, dget_dinsert, if_pos rfl]
      · exact ihn (i+1) (by omega) _ _ j (by omega) hj2
    · exact absurd hj2 (by omega)

theorem readPath_top_congr (k : String) (rest : List String) (d1 d2 : PyDict)
    (h : dget d1 k = dget d2 k) :
    readPath (k :: rest) (.vdict d1) = readPath (k :: rest) (.vdict d2) := by
  simp only [readPath, h]

theorem update_attribute_attrs_eq (b : Block) (p : String) (v : Value) (o : Nat)
    (result : PyDict)
    (hlen : 2 ≤ (splitDot p).length)
    (huia : update_inner_attribute p (.vdict b.attributes) v
      = (.vdict result, false)) :
    (update_attribute b p v o []).attributes
      = (update_attribute_loop (splitDot p) [o]
          (List.range' 0 (splitDot p).length) (wrapChain (splitDot p) v 0)
          result b.changed_attributes).1 := by
  unfold update_attribute
  dsimp only
  rw [if_pos (Or.inl rfl)]
  rw [huia]
  dsimp only
  rw [if_neg (by omega : ¬(splitDot p).length = 1)]
  simp only [List.nil_append]
  rw [List.range_eq_range']
  rfl

/-- C1 (amended): after a successful (clean-descent) call
`update_attribute(p, v, o, [])` on a vertex, with `p` having at least one dot,
the nested attribute tree holds `v` at `p` (read through the top-level entry),
the flattened projection holds `v` at the key `p` itself, and every strict
prefix of `p` that keeps at least two components is written into the flat
dict with the value successively re-wrapped as a singleton mapping keyed by
the next-innermost path segment; the single-component top-level prefix is
*not* re-written by the sync loop — it keeps the nested entry produced by the
descent (which contains the updated subtree but is not a singleton
re-wrap). -/
theorem C1_update_writes_path_and_dotted_prefixes
    (b : Block) (p : String) (v : Value) (o : Nat) (result : PyDict)
    (hlen : 2 ≤ (splitDot p).length)
    (hupd : UpdOk v (splitDot p) (.vdict b.attributes) (.vdict result)) :
    readPath (splitDot p) (.vdict (update_attribute b p v o []).attributes)
      = some v
    ∧ dget (update_attribute b p v o []).attributes p = some v
    ∧ (∀ i, 1 ≤ i → i + 2 ≤ (splitDot p).length →
        dget (update_attribute b p v o []).attributes
            (joinDot ((splitDot p).take ((splitDot p).length - i)))
          = some (wrapChain (splitDot p) v i))
    ∧ dget (update_attribute b p v o []).attributes ((splitDot p).headD "")
        = dget result ((splitDot p).headD "") := by
  have hnd : ∀ s ∈ splitDot p, '.' ∉ s.data := fun s hs => splitDot_mem_no_dot hs
  have huia := uia_cleanpath hupd p rfl
  have hattrs := update_attribute_attrs_eq b p v o result hlen huia
  have hhead : dget (update_attribute b p v o []).attributes
      ((splitDot p).headD "") = dget result ((splitDot p).headD "") := by
    rw [hattrs]
    have hdf : '.' ∉ ((splitDot p).headD "").data := hnd _ (splitDot_head_mem p)
    exact (ual_untouched (splitDot p) [o] _ _ _ _ _
      (fun i' hi' hdot heq => by
        rw [heq, containsDot_eq_false_of _ hdf] at hdot
        simp at hdot)).1
  have h2 : dget (update_attribute b p v o []).attributes p = some v := by
    rw [hattrs]
    have hr := (ual_run (splitDot p) [o] v hnd (splitDot p).length 0 (by omega)
      result b.changed_attributes 0 (by omega) (by omega)).1
    have hkey0 : joinDot ((splitDot p).take ((splitDot p).length - 0)) = p := by
      rw [Nat.sub_zero, List.take_length, joinDot_splitDot]
    rw [hkey0] at hr
    exact hr
  refine ⟨?_, h2, ?_, hhead⟩
  · cases hp : splitDot p with
    | nil =>
      rw [hp] at hlen
      simp at hlen
    | cons hd0 tl =>
      have hh : dget (update_attribute b p v o []).attributes hd0
          = dget result hd0 := by
        have hx := hhead
        rw [hp] at hx
        simpa using hx
      calc readPath (hd0 :: tl)
            (.vdict (update_attribute b p v o []).attributes)
          = readPath (hd0 :: tl) (.vdict result) :=
            readPath_top_congr _ _ _ _ hh
        _ = readPath (splitDot p) (.vdict result) := by rw [hp]
        _ = some v := UpdOk_readPath hupd
  · intro i hi1 hi2
    rw [hattrs]
    exact (ual_run (splitDot p) [o] v hnd (splitDot p).length 0 (by omega)
      result b.changed_attributes i (by omega) hi2).1

/-- C1 counterexample: at the explicit vertex `{a: {b: 1, c: 2}}`, after
`update_attribute("a.b", 7, 3, [])` the single-component top-level prefix
`"a"` holds the full updated mapping `{b: 7, c: 2}` — the nested entry — and
*not* the claimed singleton re-wrap `{b: 7}`: the sync loop skips every key
without a dot, so the claimed re-wrapping of the single-component prefix
never happens. -/
theorem C1_single_prefix_counterexample :
    dget (update_attribute (mk_block "aws_vpc.main" (.prim .pnull) "" .resource
        [("a", .vdict [("b", .prim (.pint 1)), ("c", .prim (.pint 2))])]
        "" "" false)
      "a.b" (.prim (.pint 7)) 3 []).attributes "a"
      = some (.vdict [("b", .prim (.pint 7)), ("c", .prim (.pint 2))])
    ∧ dget (update_attribute (mk_block "aws_vpc.main" (.prim .pnull) ""
        .resource
        [("a", .vdict [("b", .prim (.pint 1)), ("c", .prim (.pint 2))])]
        "" "" false)
      "a.b" (.prim (.pint 7)) 3 []).attributes "a"
      ≠ some (.vdict [("b", .prim (.pint 7))]) :=
  ⟨by decide, by decide⟩

/-- Witness for C1 at the explicit vertex `{a: {b: 1, c: 2}}` and path
`"a.b"`: the flat projection holds the new value at the full path key. -/
theorem C1_witness :
    dget (update_attribute (mk_block "aws_vpc.main" (.prim .pnull) "" .resource
        [("a", .vdict [("b", .prim (.pint 1)), ("c", .prim (.pint 2))])]
        "" "" false)
      "a.b" (.prim (.pint 7)) 3 []).attributes "a.b"
      = some (.prim (.pint 7)) := by
  have hupd : UpdOk (.prim (.pint 7)) (splitDot "a.b")
      (.vdict (mk_block "aws_vpc.main" (.prim .pnull) "" .resource
        [("a", .vdict [("b", .prim (.pint 1)), ("c", .prim (.pint 2))])]
        "" "" false).attributes)
      (.vdict [("a", .vdict [("b", .prim (.pint 7)),
        ("c", .prim (.pint 2))])]) := by
    rw [show splitDot "a.b" = ["a", "b"] from by decide]
    rw [show (mk_block "aws_vpc.main" (.prim .pnull) "" .resource
        [("a", .vdict [("b", .prim (.pint 1)), ("c", .prim (.pint 2))])]
        "" "" false).attributes
      = [("a", Value.vdict [("b", Value.prim (.pint 1)),
          ("c", Value.prim (.pint 2))])] from by decide]
    rw [show ([("a", Value.vdict [("b", Value.prim (.pint 7)),
          ("c", Value.prim (.pint 2))])] : PyDict)
      = dinsert [("a", Value.vdict [("b", Value.prim (.pint 1)),
          ("c", Value.prim (.pint 2))])] "a"
          (Value.vdict [("b", Value.prim (.pint 7)),
            ("c", Value.prim (.pint 2))]) from by decide]
    refine UpdOk.step "a" ["b"] _
      (.vdict [("b", .prim (.pint 1)), ("c", .prim (.pint 2))]) _
      (by decide) (by decide) (by decide) (by decide) (by decide) ?_
    rw [show (Value.vdict [("b", Value.prim (.pint 7)),
          ("c", Value.prim (.pint 2))])
      = .vdict (dinsert [("b", Value.prim (.pint 1)),
          ("c", Value.prim (.pint 2))] "b" (.prim (.pint 7))) from by decide]
    exact UpdOk.last "b" _ (by decide) (by decide)
  exact (C1_update_writes_path_and_dotted_prefixes _ "a.b" _ 3 _
    (by decide) hupd).2.1

/-- Re-assigning the value a key already holds leaves the dict unchanged. -/
theorem dinsert_self {α : Type} {d : List (String × α)} {k : String} {v : α}
    (h : dget d k = some v) : dinsert d k v = d := by
  induction d with
  | nil => simp [dget] at h
  | cons hd tl ih =>
    obtain ⟨k', v'⟩ := hd
    by_cases hk : k' = k
    · subst hk
      rw [dget, if_pos rfl] at h
      injection h with h
      subst h
      rw [dinsert, if_pos rfl]
    · rw [dget, if_neg hk] at h
      rw [dinsert, if_neg hk, ih h]

/-- A failing descent is swallowed by the handlers: `update_inner_attribute`
returns the container *unchanged* and no exception escapes. -/
theorem uia_failpath {v : Value} {parts : List String} {nested : Value}
    (h : FailUpd v parts nested) :
    ∀ (key : String), splitDot key = parts →
      update_inner_attribute key nested v = (nested, false) := by
  induction h with
  | missing k rest d hnum hdot hrest hget hfall =>
    intro key hkey
    have hkeyeq : joinDot (k :: rest) = key := by
      have h2 := joinDot_splitDot key
      rw [hkey] at h2
      exact h2
    rw [hkeyeq] at hfall
    show (uiaF (vsize (Value.vdict d) + 1) key (Value.vdict d) v).getD
      (Value.vdict d, true) = (Value.vdict d, false)
    rw [uiaF_dict]
    rw [hfall]
    rw [if_neg (by decide : ¬truthyOpt none = true)]
    unfold uiaDictBody
    dsimp only
    rw [hkey]
    rw [if_neg (fun hh : (k :: rest).length = 1 =>
      hrest (List.length_eq_zero.mp (by simpa using hh)))]
    simp only [List.headD_cons, List.tail_cons]
    rw [hnum]
    rw [if_neg Bool.false_ne_true]
    rw [hget]
    dsimp only
    rw [hfall]
    rw [if_neg (by decide : ¬(none : Option Value).isSome = true)]
    simp only [Option.getD_some]
  | prim_child k rest d p hnum hdot hrest hget hfall =>
    intro key hkey
    have hkeyeq : joinDot (k :: rest) = key := by
      have h2 := joinDot_splitDot key
      rw [hkey] at h2
      exact h2
    rw [hkeyeq] at hfall
    show (uiaF (vsize (Value.vdict d) + 1) key (Value.vdict d) v).getD
      (Value.vdict d, true) = (Value.vdict d, false)
    rw [uiaF_dict]
    rw [hfall]
    rw [if_neg (by decide : ¬truthyOpt none = true)]
    unfold uiaDictBody
    dsimp only
    rw [hkey]
    rw [if_neg (fun hh : (k :: rest).length = 1 =>
      hrest (List.length_eq_zero.mp (by simpa using hh)))]
    simp only [List.headD_cons, List.tail_cons]
    rw [hnum]
    rw [if_neg Bool.false_ne_true]
    rw [hget]
    dsimp only
    have hch : uiaF (vsize (Value.vdict d)) (joinDot rest) (.prim p) v
        = some (.prim p, true) := by
      cases hv : vsize (Value.vdict d) with
      | zero =>
        have := vsize_pos (Value.vdict d)
        omega
      | succ f => exact uiaF_prim f (joinDot rest) p v
    rw [hch]
    dsimp only
    rw [if_pos rfl]
    rw [dinsert_self hget]
    rw [hfall]
    rw [if_neg (by decide : ¬(none : Option Value).isSome = true)]
    simp only [Option.getD_some]
  | step k rest d c hnum hdot hdots hrest hget hflat hrec ih =>
    intro key hkey
    have hkeyeq : joinDot (k :: rest) = key := by
      have h2 := joinDot_splitDot key
      rw [hkey] at h2
      exact h2
    rw [hkeyeq] at hflat
    show (uiaF (vsize (Value.vdict d) + 1) key (Value.vdict d) v).getD
      (Value.vdict d, true) = (Value.vdict d, false)
    rw [uiaF_dict]
    rw [hflat]
    rw [if_neg Bool.false_ne_true]
    unfold uiaDictBody
    dsimp only
    rw [hkey]
    rw [if_neg (fun hh : (k :: rest).length = 1 =>
      hrest (List.length_eq_zero.mp (by simpa using hh)))]
    simp only [List.headD_cons, List.tail_cons]
    rw [hnum]
    rw [if_neg Bool.false_ne_true]
    rw [hget]
    dsimp only
    have hch : uiaF (vsize (Value.vdict d)) (joinDot rest) c v
        = some (c, false) := by
      rw [uiaF_eq _ _ _ _ (by
        have := vsize_lt_vdict (dget_mem hget)
        omega)]
      rw [ih (joinDot rest) (splitDot_joinDot rest hrest hdots)]
    rw [hch]
    dsimp only
    rw [if_neg Bool.false_ne_true]
    rw [dinsert_self hget]
    simp only [Option.getD_some]

theorem update_attribute_changed_eq (b : Block) (p : String) (v : Value)
    (o : Nat) (result : PyDict)
    (hlen : 2 ≤ (splitDot p).length)
    (huia : update_inner_attribute p (.vdict b.attributes) v
      = (.vdict result, false)) :
    (update_attribute b p v o []).changed_attributes
      = (update_attribute_loop (splitDot p) [o]
          (List.range' 0 (splitDot p).length) (wrapChain (splitDot p) v 0)
          result b.changed_attributes).2 := by
  unfold update_attribute
  dsimp only
  rw [if_pos (Or.inl rfl)]
  rw [huia]
  dsimp only
  rw [if_neg (by omega : ¬(splitDot p).length = 1)]
  simp only [List.nil_append]
  rw [List.range_eq_range']
  rfl

/-- C2 counterexample: at the explicit vertex `{x: 1}`, `update("a.b", 7, 3, [])`
fails its nested traversal (`"a"` is missing) and the full path `"a.b"` is not
an existing key, yet the call is *not* mutation-free: the nested tree is left
unchanged and the failure is non-fatal, but the sync loop still writes the
flat key `"a.b" = 7` and records `"a.b"` in `changed_attributes`. -/
theorem C2_mutates_on_failure_counterexample :
    update_inner_attribute "a.b" (.vdict [("x", .prim (.pint 1))])
        (.prim (.pint 7))
      = (.vdict [("x", .prim (.pint 1))], false)
    ∧ dget ([("x", Value.prim (.pint 1))] : PyDict) "a.b" = none
    ∧ dget (update_attribute (mk_block "aws_vpc.main" (.prim .pnull) ""
        .resource [("x", .prim (.pint 1))] "" "" false)
        "a.b" (.prim (.pint 7)) 3 []).attributes "a.b"
      = some (.prim (.pint 7))
    ∧ (update_attribute (mk_block "aws_vpc.main" (.prim .pnull) ""
        .resource [("x", .prim (.pint 1))] "" "" false)
        "a.b" (.prim (.pint 7)) 3 []).changed_attributes
      = [("a.b", [3])] :=
  ⟨by decide, by decide, by decide, by decide⟩

/-- C2 (amended): when the nested traversal fails *cleanly* — the descent
runs through mappings with present, non-numeric, dot-free components until it
hits a missing key or a primitive, and the remaining dotted key is absent
where the exception surfaces and never truthily present mid-descent
(otherwise the step-1 flat write or the handler fallback rewrites the tree) —
the nested attribute tree is indeed left unchanged (`update_inner_attribute`
returns the container as it was; every dot-free key keeps its value) and the
failure is logged and non-fatal; but the call does *not* mutate nothing: the
sync loop still writes the full path *and every dotted strict prefix* into
the flattened projection and records each of them in `changed_attributes`. -/
theorem C2_failed_traversal_still_writes_flat
    (b : Block) (p : String) (v : Value) (o : Nat)
    (hlen : 2 ≤ (splitDot p).length)
    (hfail : FailUpd v (splitDot p) (.vdict b.attributes)) :
    update_inner_attribute p (.vdict b.attributes) v
      = (.vdict b.attributes, false)
    ∧ (∀ k : String, '.' ∉ k.data →
        dget (update_attribute b p v o []).attributes k = dget b.attributes k)
    ∧ dget (update_attribute b p v o []).attributes p = some v
    ∧ dget (update_attribute b p v o []).changed_attributes p = some [o]
    ∧ (∀ i, 1 ≤ i → i + 2 ≤ (splitDot p).length →
        dget (update_attribute b p v o []).attributes
            (joinDot ((splitDot p).take ((splitDot p).length - i)))
          = some (wrapChain (splitDot p) v i)
        ∧ dget (update_attribute b p v o []).changed_attributes
            (joinDot ((splitDot p).take ((splitDot p).length - i)))
          = some [o]) := by
  have hnd : ∀ s ∈ splitDot p, '.' ∉ s.data := fun s hs => splitDot_mem_no_dot hs
  have huia := uia_failpath hfail p rfl
  have hattrs := update_attribute_attrs_eq b p v o b.attributes hlen huia
  have hch := update_attribute_changed_eq b p v o b.attributes hlen huia
  have hkey0 : joinDot ((splitDot p).take ((splitDot p).length - 0)) = p := by
    rw [Nat.sub_zero, List.take_length, joinDot_splitDot]
  refine ⟨huia, ?_, ?_, ?_, ?_⟩
  · intro k hk
    rw [hattrs]
    exact (ual_untouched (splitDot p) [o] _ _ _ _ _
      (fun i' hi' hdot heq => by
        rw [heq, containsDot_eq_false_of _ hk] at hdot
        simp at hdot)).1
  · rw [hattrs]
    have hr := (ual_run (splitDot p) [o] v hnd (splitDot p).length 0 (by omega)
      b.attributes b.changed_attributes 0 (by omega) (by omega)).1
    rw [hkey0] at hr
    exact hr
  · rw [hch]
    have hr := (ual_run (splitDot p) [o] v hnd (splitDot p).length 0 (by omega)
      b.attributes b.changed_attributes 0 (by omega) (by omega)).2
    rw [hkey0] at hr
    exact hr
  · intro i hi1 hi2
    refine ⟨?_, ?_⟩
    · rw [hattrs]
      exact (ual_run (splitDot p) [o] v hnd (splitDot p).length 0 (by omega)
        b.attributes b.changed_attributes i (by omega) hi2).1
    · rw [hch]
      exact (ual_run (splitDot p) [o] v hnd (splitDot p).length 0 (by omega)
        b.attributes b.changed_attributes i (by omega) hi2).2

/-- Witness for C2 at the explicit vertex `{x: 1}` and the three-component
path `"a.b.c"`: the traversal fails at the missing `"a"`, the tree is
unchanged (`"x"` keeps its value), yet the flat keys `"a.b.c"` and the
strict dotted prefix `"a.b"` are written — the latter with the singleton
re-wrap `{c: 7}` — and both are recorded in `changed_attributes`. -/
theorem C2_witness :
    update_inner_attribute "a.b.c"
        (.vdict (mk_block "aws_vpc.main" (.prim .pnull) "" .resource
          [("x", .prim (.pint 1))] "" "" false).attributes) (.prim (.pint 7))
      = (.vdict (mk_block "aws_vpc.main" (.prim .pnull) "" .resource
          [("x", .prim (.pint 1))] "" "" false).attributes, false)
    ∧ dget (update_attribute (mk_block "aws_vpc.main" (.prim .pnull) ""
        .resource [("x", .prim (.pint 1))] "" "" false)
        "a.b.c" (.prim (.pint 7)) 3 []).attributes "x"
      = dget (mk_block "aws_vpc.main" (.prim .pnull) "" .resource
          [("x", .prim (.pint 1))] "" "" false).attributes "x"
    ∧ dget (update_attribute (mk_block "aws_vpc.main" (.prim .pnull) ""
        .resource [("x", .prim (.pint 1))] "" "" false)
        "a.b.c" (.prim (.pint 7)) 3 []).attributes "a.b.c"
      = some (.prim (.pint 7))
    ∧ dget (update_attribute (mk_block "aws_vpc.main" (.prim .pnull) ""
        .resource [("x", .prim (.pint 1))] "" "" false)
        "a.b.c" (.prim (.pint 7)) 3 []).changed_attributes "a.b.c"
      = some [3]
    ∧ dget (update_attribute (mk_block "aws_vpc.main" (.prim .pnull) ""
        .resource [("x", .prim (.pint 1))] "" "" false)
        "a.b.c" (.prim (.pint 7)) 3 []).attributes "a.b"
      = some (.vdict [("c", .prim (.pint 7))])
    ∧ dget (update_attribute (mk_block "aws_vpc.main" (.prim .pnull) ""
        .resource [("x", .prim (.pint 1))] "" "" false)
        "a.b.c" (.prim (.pint 7)) 3 []).changed_attributes "a.b"
      = some [3] := by
  have hfail : FailUpd (.prim (.pint 7)) (splitDot "a.b.c")
      (.vdict (mk_block "aws_vpc.main" (.prim .pnull) "" .resource
        [("x", .prim (.pint 1))] "" "" false).attributes) := by
    rw [show splitDot "a.b.c" = ["a", "b", "c"] from by decide]
    rw [show (mk_block "aws_vpc.main" (.prim .pnull) "" .resource
        [("x", .prim (.pint 1))] "" "" false).attributes
      = [("x", Value.prim (.pint 1))] from by decide]
    exact FailUpd.missing "a" ["b", "c"] _ (by decide) (by decide) (by decide)
      (by decide) (by decide)
  obtain ⟨h1, h2, h3, h4, h5⟩ := C2_failed_traversal_still_writes_flat
    (mk_block "aws_vpc.main" (.prim .pnull) "" .resource
      [("x", .prim (.pint 1))] "" "" false)
    "a.b.c" (.prim (.pint 7)) 3 (by decide) hfail
  refine ⟨h1, h2 "x" (by decide), h3, h4, ?_, ?_⟩
  · have hp := (h5 1 (by decide) (by decide)).1
    rw [show joinDot ((splitDot "a.b.c").take ((splitDot "a.b.c").length - 1))
        = "a.b" from by decide] at hp
    rw [show wrapChain (splitDot "a.b.c") (.prim (.pint 7)) 1
        = Value.vdict [("c", Value.prim (.pint 7))] from by decide] at hp
    exact hp
  · have hp := (h5 1 (by decide) (by decide)).2
    rw [show joinDot ((splitDot "a.b.c").take ((splitDot "a.b.c").length - 1))
        = "a.b" from by decide] at hp
    exact hp
